import Mathlib

/-!
Shallow embedding of the WeRecCover rectilinear-polygon covering code
(rectangle primitives, base-rectangle graph, greedy set cover selection,
cover postprocessors, and ray/segment utilities), together with theorems
settling the specification claims about them.

Conventions of the embedding:
* `NumType` is `double` in the source; all inputs the program handles are
  integer-valued coordinates (WKT integer polygons), so coordinates are
  embedded as `Int`.
* `CostType` is declared in `datastructures.h`, which is not part of the
  sources at hand; following the spec ("--costs CREATION AREA, two
  non-negative integers"), it is embedded as `Nat`.
* C++ `while` loops are embedded as fuel-based recursion or well-founded
  recursion on an explicit measure, keeping the loop bodies verbatim.
* `std::map` / flat hash maps keyed by points are embedded as association
  lists with overwrite-on-insert semantics (keys stay unique).
-/

namespace Cover

/-- A 2-D point with exact integer coordinates (CGAL `Point_2`). -/
structure Pt where
  x : Int
  y : Int
deriving DecidableEq, Repr

/-- Embeds the CGAL lexicographic comparison `compare_xy`: `x` first, then `y`. -/
def Pt.lt (p q : Pt) : Bool :=
  p.x < q.x || (p.x == q.x && p.y < q.y)

/-- Embeds `Rectangle`: axis-aligned box held as bottom-left and top-right corners. -/
structure Rectangle where
  bottom_left : Pt
  top_right : Pt
deriving DecidableEq, Repr

namespace Rectangle

def get_bottom_left (r : Rectangle) : Pt := r.bottom_left

def get_top_right (r : Rectangle) : Pt := r.top_right

def get_bottom_right (r : Rectangle) : Pt := ⟨r.top_right.x, r.bottom_left.y⟩

def get_top_left (r : Rectangle) : Pt := ⟨r.bottom_left.x, r.top_right.y⟩

def get_min_x (r : Rectangle) : Int := r.bottom_left.x

def get_min_y (r : Rectangle) : Int := r.bottom_left.y

def get_max_x (r : Rectangle) : Int := r.top_right.x

def get_max_y (r : Rectangle) : Int := r.top_right.y

def width (r : Rectangle) : Int := r.top_right.x - r.bottom_left.x

def height (r : Rectangle) : Int := r.top_right.y - r.bottom_left.y

/-- Embeds `Rectangle::area`: `(tr.x - bl.x) * (tr.y - bl.y)`. -/
def area (r : Rectangle) : Int :=
  (r.top_right.x - r.bottom_left.x) * (r.top_right.y - r.bottom_left.y)

/-- Embeds `Rectangle::fully_contains`. -/
def fully_contains (r other : Rectangle) : Bool :=
  r.bottom_left.x ≤ other.bottom_left.x && r.bottom_left.y ≤ other.bottom_left.y &&
  r.top_right.x ≥ other.top_right.x && r.top_right.y ≥ other.top_right.y

/-- Embeds `Rectangle::intersects`: the two early-out disjointness tests, then true. -/
def intersects (r other : Rectangle) : Bool :=
  if other.top_right.x ≤ r.bottom_left.x || r.top_right.x ≤ other.bottom_left.x then
    -- rectangles are horizontally disjoint
    false
  else if other.top_right.y ≤ r.bottom_left.y || r.top_right.y ≤ other.bottom_left.y then
    -- rectangles are vertically disjoint
    false
  else
    true

/-- Embeds `Rectangle::join`: smallest enclosing rectangle of the pair. -/
def join (r other : Rectangle) : Rectangle :=
  { bottom_left := ⟨min r.get_min_x other.get_min_x, min r.get_min_y other.get_min_y⟩
    top_right := ⟨max r.get_max_x other.get_max_x, max r.get_max_y other.get_max_y⟩ }

/-- Embeds `Rectangle::operator<` with C++ operator precedence made explicit:
`a || b && c` parses as `a || (b && c)`. -/
def lt (r other : Rectangle) : Bool :=
  Pt.lt r.get_bottom_left other.get_bottom_left ||
    (r.get_bottom_left == other.get_bottom_left &&
      Pt.lt r.get_top_right other.get_top_right)

/-- Embeds `shrink_up`: moves the bottom edge up (`bottom_left += {0, amount}`). -/
def shrink_up (r : Rectangle) (amount : Int) : Rectangle :=
  { r with bottom_left := ⟨r.bottom_left.x, r.bottom_left.y + amount⟩ }

/-- Embeds `shrink_down`: moves the top edge down (`top_right -= {0, amount}`). -/
def shrink_down (r : Rectangle) (amount : Int) : Rectangle :=
  { r with top_right := ⟨r.top_right.x, r.top_right.y - amount⟩ }

/-- Embeds `shrink_left`: moves the left edge right (`bottom_left += {amount, 0}`). -/
def shrink_left (r : Rectangle) (amount : Int) : Rectangle :=
  { r with bottom_left := ⟨r.bottom_left.x + amount, r.bottom_left.y⟩ }

/-- Embeds `shrink_right`: moves the right edge left (`top_right -= {amount, 0}`). -/
def shrink_right (r : Rectangle) (amount : Int) : Rectangle :=
  { r with top_right := ⟨r.top_right.x - amount, r.top_right.y⟩ }

end Rectangle

/-- The coordinate constructor `Rectangle(min_x, min_y, max_x, max_y)`: throws
`std::runtime_error` ("Rectangle has invalid min/max coordinates") when
`min_x >= max_x || min_y >= max_y`, otherwise builds the rectangle. -/
def mkRectangle (min_x min_y max_x max_y : Int) : Except String Rectangle :=
  if min_x ≥ max_x || min_y ≥ max_y then
    .error ("Rectangle has invalid min/max coordinates")
  else
    .ok { bottom_left := ⟨min_x, min_y⟩, top_right := ⟨max_x, max_y⟩ }

/-- The corner constructor `Rectangle(const Point &bottom_left, const Point
&top_right)`: a bare member-initializer list, with no validation at all. -/
def mkRectangleOfPoints (bottom_left top_right : Pt) : Rectangle :=
  { bottom_left := bottom_left, top_right := top_right }

/-- The copy constructor delegates to the coordinate constructor, so it
re-validates the corners. -/
def mkRectangleCopy (other : Rectangle) : Except String Rectangle :=
  mkRectangle other.bottom_left.x other.bottom_left.y other.top_right.x other.top_right.y

/-- Spec-level lexicographic order on the pair `(bl, tr)` ("ordering is
lexicographic on `(bl, tr)`"): `r < s` iff `r.bl < s.bl`, or `r.bl = s.bl` and
`r.tr < s.tr`. This is the spec's wording, to be compared with
`Rectangle.lt` taken from the source. -/
def rectLexLt (r s : Rectangle) : Prop :=
  Pt.lt r.bottom_left s.bottom_left = true ∨
    (r.bottom_left = s.bottom_left ∧ Pt.lt r.top_right s.top_right = true)

instance : DecidablePred fun p : Rectangle × Rectangle => rectLexLt p.1 p.2 := by
  intro p
  unfold rectLexLt
  infer_instance

/-- Open-interval overlap of `(a₁, b₁)` and `(a₂, b₂)`: `max a₁ a₂ < min b₁ b₂`. -/
def openOverlap (a₁ b₁ a₂ b₂ : Int) : Prop := max a₁ a₂ < min b₁ b₂

instance : DecidablePred fun q : Int × Int × Int × Int =>
    openOverlap q.1 q.2.1 q.2.2.1 q.2.2.2 := by
  intro q
  unfold openOverlap
  infer_instance

/-- The data-model invariant on rectangles: `bl.x < tr.x` and `bl.y < tr.y`
(enforced by the validating constructor). -/
def Rectangle.proper (r : Rectangle) : Prop :=
  r.bottom_left.x < r.top_right.x ∧ r.bottom_left.y < r.top_right.y

instance : DecidablePred Rectangle.proper := by
  intro r
  unfold Rectangle.proper
  infer_instance

/-- C6: for proper rectangles, `Rectangle::intersects` returns true exactly
when the open x-intervals and the open y-intervals of the two rectangles
overlap; rectangles that only touch along an edge or at a corner therefore do
not intersect. -/
theorem intersects_iff_open_overlap (r s : Rectangle)
    (hr : r.proper) (hs : s.proper) :
    r.intersects s = true ↔
      (openOverlap r.get_min_x r.get_max_x s.get_min_x s.get_max_x ∧
        openOverlap r.get_min_y r.get_max_y s.get_min_y s.get_max_y) := by
  obtain ⟨hr1, hr2⟩ := hr
  obtain ⟨hs1, hs2⟩ := hs
  simp only [Rectangle.intersects, Rectangle.get_min_x, Rectangle.get_max_x,
    Rectangle.get_min_y, Rectangle.get_max_y, openOverlap]
  by_cases hx : s.top_right.x ≤ r.bottom_left.x ∨ r.top_right.x ≤ s.bottom_left.x
  · simp [hx]
    omega
  · by_cases hy : s.top_right.y ≤ r.bottom_left.y ∨ r.top_right.y ≤ s.bottom_left.y
    · simp [hx, hy]
      omega
    · simp [hx, hy]
      omega

/-- Witness for `intersects_iff_open_overlap`: two concrete proper squares
whose interiors overlap. -/
theorem intersects_iff_open_overlap_witness :
    (Rectangle.proper ⟨⟨0, 0⟩, ⟨2, 2⟩⟩ ∧ Rectangle.proper ⟨⟨1, 1⟩, ⟨3, 3⟩⟩) ∧
      ((Rectangle.intersects ⟨⟨0, 0⟩, ⟨2, 2⟩⟩ ⟨⟨1, 1⟩, ⟨3, 3⟩⟩ = true) ↔
        (openOverlap 0 2 1 3 ∧ openOverlap 0 2 1 3)) :=
  ⟨⟨by decide, by decide⟩,
    intersects_iff_open_overlap ⟨⟨0, 0⟩, ⟨2, 2⟩⟩ ⟨⟨1, 1⟩, ⟨3, 3⟩⟩ (by decide) (by decide)⟩

/-- C7: `Rectangle::operator<`, as written in the source (relying on `&&`
binding tighter than `||`), computes exactly the lexicographic order on the
pair `(bottom_left, top_right)`. -/
theorem rect_lt_eq_lex (r s : Rectangle) :
    Rectangle.lt r s = true ↔ rectLexLt r s := by
  simp only [Rectangle.lt, rectLexLt, Rectangle.get_bottom_left, Rectangle.get_top_right,
    Bool.or_eq_true, Bool.and_eq_true, beq_iff_eq]

/-- C8 counterexample: constructing a `Rectangle` from a degenerate pair of
corner points through the `(bottom_left, top_right)` constructor does not fail:
it yields the degenerate rectangle unchanged, while the coordinate constructor
rejects the same coordinates. -/
theorem ofPoints_degenerate_no_error :
    mkRectangleOfPoints ⟨0, 0⟩ ⟨0, 0⟩ =
        { bottom_left := ⟨0, 0⟩, top_right := ⟨0, 0⟩ } ∧
      mkRectangle 0 0 0 0 = .error ("Rectangle has invalid min/max coordinates") := by
  constructor
  · rfl
  · rfl

/-- C8 amended: the coordinate constructor (and the copy constructor, which
delegates to it) fails exactly on degenerate extents `min ≥ max`, while the
`(bottom_left, top_right)` point-pair constructor never validates and returns
the corners unchanged for every input, degenerate or not. -/
theorem rectangle_constructors_validation :
    (∀ a b c d : Int,
        (∃ e, mkRectangle a b c d = .error e) ↔ (c ≤ a ∨ d ≤ b)) ∧
      (∀ p q : Pt, mkRectangleOfPoints p q = { bottom_left := p, top_right := q }) := by
  constructor
  · intro a b c d
    unfold mkRectangle
    by_cases h : a ≥ c ∨ b ≥ d
    · constructor
      · intro
        omega
      · intro
        have hb : (decide (a ≥ c) || decide (b ≥ d)) = true := by
          rcases h with h | h <;> simp [h]
        exact ⟨"Rectangle has invalid min/max coordinates", by simp [hb]⟩
    · constructor
      · intro ⟨e, he⟩
        have hb : (decide (a ≥ c) || decide (b ≥ d)) = false := by
          push_neg at h
          simp [not_le.mpr h.1, not_le.mpr h.2]
        simp [hb] at he
      · intro hc
        omega
  · intro p q
    rfl

end Cover

namespace Cover

/-! ## Costs (`Problem_instance::Costs`)

`CostType` lives in `datastructures.h`, which is absent from the sources at
hand; per the spec ("--costs CREATION AREA, two non-negative integers") it is
embedded as `Nat`. -/

structure Costs where
  creation_cost : Nat
  area_cost : Nat
deriving DecidableEq, Repr

/-- Embeds `Problem_instance::calculate_total_cost_of_rectangle`:
`creation_cost + area_cost * rectangle.area()` (the source sums the two
components of `calculate_cost_of_rectangle`). -/
def totalCostOfRectangle (r : Rectangle) (costs : Costs) : Nat :=
  costs.creation_cost + costs.area_cost * r.area.toNat

/-! ## Greedy set cover (`Greedy_set_cover_algorithm`) -/

/-- Embeds `Greedy_set_cover_algorithm::QueueEntry`. `cost_per_unit` is a `double`
in the source; it is embedded as an exact rational, which preserves the
comparison structure the selection loop relies on. -/
structure QueueEntry where
  rectangle : Rectangle
  area : Nat
  effective_area : Nat
  cost : Nat
  cost_per_unit : ℚ
deriving DecidableEq, Repr

/-- The `QueueEntry` constructor: `area = rectangle.area()`,
`effective_area = area`, `cost` the total rectangle cost, and
`cost_per_unit = cost / effective_area`. -/
def mkQueueEntry (r : Rectangle) (costs : Costs) : QueueEntry :=
  let area := r.area.toNat
  let cost := totalCostOfRectangle r costs
  { rectangle := r, area := area, effective_area := area, cost := cost
    cost_per_unit := (cost : ℚ) / (area : ℚ) }

/-- Embeds `QueueEntry::update`: leave the entry alone when the picked rectangle is
disjoint from it; zero its effective area when fully contained; otherwise
subtract the areas of the newly covered base rectangles the entry fully
contains and recompute `cost_per_unit` (only when the effective area stays
positive, as in the source). -/
def QueueEntry.update (e : QueueEntry) (picked : Rectangle)
    (newly_covered : List Rectangle) : QueueEntry :=
  if ¬ picked.intersects e.rectangle then
    -- picked rectangle covers none of our area
    e
  else if picked.fully_contains e.rectangle then
    -- picked rectangle covers us completely
    { e with effective_area := 0 }
  else
    let ea := newly_covered.foldl
      (fun acc base =>
        if e.rectangle.fully_contains base then acc - base.area.toNat else acc)
      e.effective_area
    if ea = 0 then
      { e with effective_area := 0 }
    else
      { e with effective_area := ea
               cost_per_unit := (e.cost : ℚ) / (ea : ℚ) }

/-- One step of the queue-update loop of `calculate_cover`: update the entry,
drop it when its effective area is zero, otherwise keep it and re-compare it
against the best entry so far (`cost_per_unit` strictly smaller, or equal
`cost_per_unit` and strictly larger `effective_area`).  The running best is
`none` before the first kept entry, matching `current_best_cost = ∞` in the
source. -/
def greedySelStep (picked : Rectangle) (newly_covered : List Rectangle)
    (acc : List QueueEntry × Option QueueEntry) (e : QueueEntry) :
    List QueueEntry × Option QueueEntry :=
  let e' := e.update picked newly_covered
  if e'.effective_area = 0 then
    acc
  else
    match acc.2 with
    | none => (acc.1 ++ [e'], some e')
    | some b =>
        if e'.cost_per_unit < b.cost_per_unit ∨
            (e'.cost_per_unit = b.cost_per_unit ∧ b.effective_area < e'.effective_area) then
          (acc.1 ++ [e'], some e')
        else
          (acc.1 ++ [e'], some b)

/-- The queue-update loop at the bottom of
`Greedy_set_cover_algorithm::calculate_cover`, run after a rectangle has been
picked: every remaining entry is updated exactly once, zero-effective-area
entries are pruned, and the next `current_best` is selected on the fly.  (The
source erases pruned entries with swap-and-pop, which permutes the traversal
order; each entry is still visited exactly once, so the loop is embedded as a
left fold in queue order.) -/
def greedyUpdatePass (picked : Rectangle) (newly_covered : List Rectangle)
    (queue : List QueueEntry) : List QueueEntry × Option QueueEntry :=
  queue.foldl (greedySelStep picked newly_covered) ([], none)

/-- The invariant the selection fold maintains: the best-so-far entry is a
survivor, has minimal `cost_per_unit` among survivors, and maximal
`effective_area` among survivors of equal `cost_per_unit`. -/
def greedySelInv (acc : List QueueEntry × Option QueueEntry) : Prop :=
  (acc.2 = none → acc.1 = []) ∧
    (∀ b, acc.2 = some b → b ∈ acc.1 ∧
      ∀ e ∈ acc.1, b.cost_per_unit ≤ e.cost_per_unit ∧
        (e.cost_per_unit = b.cost_per_unit → e.effective_area ≤ b.effective_area))

theorem greedySelStep_inv (picked : Rectangle) (newly_covered : List Rectangle)
    (acc : List QueueEntry × Option QueueEntry) (e : QueueEntry)
    (h : greedySelInv acc) : greedySelInv (greedySelStep picked newly_covered acc e) := by
  obtain ⟨hnone, hsome⟩ := h
  unfold greedySelStep
  set e' := e.update picked newly_covered with he'
  by_cases hz : e'.effective_area = 0
  · simpa [hz] using ⟨hnone, hsome⟩
  · simp only [hz, if_false]
    cases hacc : acc.2 with
    | none =>
        have hl : acc.1 = [] := hnone hacc
        refine ⟨by simp, ?_⟩
        intro b hb
        simp only [Option.some.injEq] at hb
        subst hb
        refine ⟨by simp [hl], ?_⟩
        intro f hf
        simp [hl] at hf
        subst hf
        exact ⟨le_refl _, fun _ => le_refl _⟩
    | some b =>
        obtain ⟨hbmem, hbbest⟩ := hsome b hacc
        by_cases hrepl : e'.cost_per_unit < b.cost_per_unit ∨
            (e'.cost_per_unit = b.cost_per_unit ∧ b.effective_area < e'.effective_area)
        · simp only [hrepl, if_true]
          refine ⟨by simp, ?_⟩
          intro c hc
          simp only [Option.some.injEq] at hc
          subst hc
          refine ⟨by simp, ?_⟩
          intro f hf
          rcases List.mem_append.mp hf with hf | hf
          · have hbf := hbbest f hf
            rcases hrepl with hlt | ⟨heq, hea⟩
            · refine ⟨le_trans (le_of_lt hlt) hbf.1, ?_⟩
              intro hfe
              exfalso
              have := hbf.1
              rw [hfe] at this
              exact absurd (lt_of_lt_of_le hlt this) (lt_irrefl _)
            · refine ⟨heq ▸ hbf.1, ?_⟩
              intro hfe
              exact le_trans (hbf.2 (by rw [hfe, heq])) (le_of_lt hea)
          · simp at hf
            subst hf
            exact ⟨le_refl _, fun _ => le_refl _⟩
        · simp only [hrepl, if_false]
          refine ⟨by simp, ?_⟩
          intro c hc
          simp only [Option.some.injEq] at hc
          subst hc
          refine ⟨by simp [hbmem], ?_⟩
          intro f hf
          rcases List.mem_append.mp hf with hf | hf
          · exact hbbest f hf
          · simp at hf
            subst hf
            push_neg at hrepl
            obtain ⟨hge, hties⟩ := hrepl
            exact ⟨hge, hties⟩

theorem greedy_foldl_inv (picked : Rectangle) (newly_covered : List Rectangle)
    (queue : List QueueEntry) (acc : List QueueEntry × Option QueueEntry)
    (h : greedySelInv acc) :
    greedySelInv (queue.foldl (greedySelStep picked newly_covered) acc) := by
  induction queue generalizing acc with
  | nil => exact h
  | cons q qs ih =>
      exact ih _ (greedySelStep_inv picked newly_covered acc q h)

/-- C3: in every iteration of the greedy main loop, after the picked rectangle
has been removed and all remaining queue entries updated, the entry selected
as the next `current_best` belongs to the surviving queue, has the smallest
`cost_per_unit` among surviving entries, and among surviving entries of equal
smallest `cost_per_unit` it has the largest `effective_area`. -/
theorem greedy_reselect_best (picked : Rectangle) (newly_covered : List Rectangle)
    (queue survivors : List QueueEntry) (best : QueueEntry)
    (h : greedyUpdatePass picked newly_covered queue = (survivors, some best)) :
    best ∈ survivors ∧
      ∀ e ∈ survivors, best.cost_per_unit ≤ e.cost_per_unit ∧
        (e.cost_per_unit = best.cost_per_unit → e.effective_area ≤ best.effective_area) := by
  have hinv := greedy_foldl_inv picked newly_covered queue ([], none)
    ⟨fun _ => rfl, by intro b hb; simp at hb⟩
  unfold greedyUpdatePass at h
  rw [h] at hinv
  exact hinv.2 best rfl

end Cover

namespace Cover

/-- A concrete queue entry used by the `greedy_reselect_best` witness. -/
def qeW1 : QueueEntry :=
  { rectangle := ⟨⟨0, 0⟩, ⟨1, 1⟩⟩, area := 1, effective_area := 1, cost := 2
    cost_per_unit := 2 }

/-- A second concrete queue entry used by the `greedy_reselect_best` witness. -/
def qeW2 : QueueEntry :=
  { rectangle := ⟨⟨2, 0⟩, ⟨4, 1⟩⟩, area := 2, effective_area := 2, cost := 2
    cost_per_unit := 1 }

/-- Witness for `greedy_reselect_best`: a picked rectangle disjoint from a
two-entry queue; the pass keeps both entries and selects the entry with the
smaller `cost_per_unit`. -/
theorem greedy_reselect_best_witness :
    qeW2 ∈ [qeW1, qeW2] ∧
      ∀ e ∈ [qeW1, qeW2], qeW2.cost_per_unit ≤ e.cost_per_unit ∧
        (e.cost_per_unit = qeW2.cost_per_unit → e.effective_area ≤ qeW2.effective_area) :=
  greedy_reselect_best ⟨⟨10, 0⟩, ⟨11, 1⟩⟩ [⟨⟨10, 0⟩, ⟨11, 1⟩⟩]
    [qeW1, qeW2] [qeW1, qeW2] qeW2 (by decide)

end Cover

namespace Cover

/-! ## Base-rectangle graph (`BaseRectGraph`) -/

/-- Embeds `BaseRectNode`: a base rectangle plus four optional neighbor indices
(`NO_NEIGHBOR` is embedded as `none`). -/
structure BaseRectNode where
  left : Option Nat := none
  right : Option Nat := none
  top : Option Nat := none
  bottom : Option Nat := none
  base_rectangle : Rectangle
deriving DecidableEq, Repr

/-- Embeds `BaseRectGraph`: node arena plus the two point-to-index maps (embedded as
association lists; insertion prepends, lookup takes the first hit, giving the
overwrite semantics of the hash maps). -/
structure BaseRectGraph where
  nodes : List BaseRectNode
  bottomLeft : List (Pt × Nat)
  topRight : List (Pt × Nat)
deriving DecidableEq, Repr

/-- Map lookup (`find`): first entry with the given key. -/
def mapFind (m : List (Pt × Nat)) (k : Pt) : Option Nat :=
  (m.find? (fun e => e.1 == k)).map (·.2)

/-- Insertion sort with a strict comparator, standing in for `std::sort`. -/
def insertSorted (cmp : α → α → Bool) (x : α) : List α → List α
  | [] => [x]
  | y :: ys => if cmp x y then x :: y :: ys else y :: insertSorted cmp x ys

def sortBy (cmp : α → α → Bool) (l : List α) : List α :=
  l.foldr (insertSorted cmp) []

/-- The comparator of `BaseRectGraph::build`:
`tl1.x < tl2.x || tl1.x == tl2.x && tl1.y > tl2.y`. -/
def buildCmp (first second : Rectangle) : Bool :=
  let tl1 := first.get_top_left
  let tl2 := second.get_top_left
  tl1.x < tl2.x || (tl1.x == tl2.x && tl1.y > tl2.y)

/-- One insertion of `BaseRectGraph::build`: link against the left neighbor
(the node whose `top_right` equals this top-left) and the top neighbor (the
node whose `bottom_left` equals this top-left), setting the reciprocal
`right`/`bottom` links, then record the two corner-map entries. -/
def buildInsert (g : BaseRectGraph) (rectangle : Rectangle) : BaseRectGraph :=
  let id := g.nodes.length
  let tl := rectangle.get_top_left
  let node : BaseRectNode := { base_rectangle := rectangle }
  let (node, nodes) :=
    match mapFind g.topRight tl with
    | some l =>
        ({ node with left := some l },
          match g.nodes[l]? with
          | some ln => g.nodes.set l { ln with right := some id }
          | none => g.nodes)
    | none => (node, g.nodes)
  let (node, nodes) :=
    match mapFind g.bottomLeft tl with
    | some t =>
        ({ node with top := some t },
          match nodes[t]? with
          | some tn => nodes.set t { tn with bottom := some id }
          | none => nodes)
    | none => (node, nodes)
  { nodes := nodes ++ [node]
    bottomLeft := (rectangle.get_bottom_left, id) :: g.bottomLeft
    topRight := (rectangle.get_top_right, id) :: g.topRight }

/-- Embeds `BaseRectGraph::build`: sort the base rectangles by
`(top_left.x asc, top_left.y desc)` and insert them one by one. -/
def BaseRectGraph.build (base_rectangles : List Rectangle) : BaseRectGraph :=
  (sortBy buildCmp base_rectangles).foldl buildInsert
    { nodes := [], bottomLeft := [], topRight := [] }

/-- One step of `SuperRectangleIterator::operator++`: descend via `bottom`
while the current base's `bl.y` exceeds the query's `bl.y`, otherwise step
`left` to the top of the next column, otherwise finish. -/
def superStep (nodes : List BaseRectNode) (bottom_left : Pt) (gl gd : Nat) :
    Option (Nat × Nat) :=
  match nodes[gd]?, nodes[gl]? with
  | some nd, some nl =>
      if nd.base_rectangle.get_bottom_left.y > bottom_left.y ∧ nd.bottom.isSome then
        match nd.bottom with
        | some b => some (gl, b)
        | none => none
      else if nl.base_rectangle.get_bottom_left.x > bottom_left.x ∧ nl.left.isSome then
        match nl.left with
        | some l => some (l, l)
        | none => none
      else
        none
  | _, _ => none

/-- The iterator walk: yield the current node, step, repeat.  `fuel` bounds
the walk (the C++ iterator terminates on every graph `build` produces; the
fuel only truncates walks on malformed graphs). -/
def superWalk (nodes : List BaseRectNode) (bottom_left : Pt) :
    Nat → Nat → Nat → List Nat
  | 0, _, _ => []
  | fuel + 1, gl, gd =>
      gd :: (match superStep nodes bottom_left gl gd with
        | some (gl2, gd2) => superWalk nodes bottom_left fuel gl2 gd2
        | none => [])

/-- Embeds `graph.begin(tr, bl) … graph.end()` as a list: all base-rectangle node
indices inside the query rectangle, in iterator order.  The start index comes
from `topRight[tr]` (`operator[]` value-initializes to `0` on a missing key);
an out-of-range start, out-of-range in C++ too, yields the empty walk. -/
def containedNodes (g : BaseRectGraph) (top_right bottom_left : Pt) : List Nat :=
  let start := (mapFind g.topRight top_right).getD 0
  if start < g.nodes.length then
    superWalk g.nodes bottom_left (g.nodes.length + 1) start start
  else
    []

/-- The base-rectangle node indices a cover rectangle covers, as iterated by
the pruner and the coverage calculator. -/
def basesOf (g : BaseRectGraph) (r : Rectangle) : List Nat :=
  containedNodes g r.get_top_right r.get_bottom_left

/-- Embeds `Cover_postprocessor::get_or_calculate_br_coverage` (the calculating
branch): for each cover rectangle, increment the count of every contained
base-rectangle node. -/
def calcBrCoverage (g : BaseRectGraph) (cover : List Rectangle) : Nat → Nat :=
  cover.foldl
    (fun covered r =>
      (basesOf g r).foldl (fun c idx => fun n => if n = idx then c n + 1 else c n) covered)
    (fun _ => 0)

end Cover

namespace Cover

/-! ## Cover pruner (`Cover_pruner::postprocess_cover`) -/

/-- Decrement the coverage count of every index in `basis` (the loop
`covered[*it]--` of the pruner over the contained base rectangles). -/
def decrementAll (basis : List Nat) (covered : Nat → Nat) : Nat → Nat :=
  basis.foldl (fun c idx => fun n => if n = idx then c n - 1 else c n) covered

/-- Swap-and-pop removal at position `i`
(`std::swap(cover.back(), cover[i]); cover.pop_back();`). -/
def swapRemove (cover : List Rectangle) (i : Nat) : List Rectangle :=
  match cover.getLast? with
  | some last => (cover.set i last).dropLast
  | none => []

/-- The main loop of `Cover_pruner::postprocess_cover`: starting at index `i`,
examine `cover[i]`; when every contained base rectangle has coverage count
different from 1 the rectangle is redundant — decrement the counts of its
bases and swap-and-pop it (the index stays put) — otherwise advance. -/
def prunePass (g : BaseRectGraph) (cover : List Rectangle) (i : Nat)
    (covered : Nat → Nat) : List Rectangle × (Nat → Nat) :=
  if h : i < cover.length then
    -- `r` is `cover[i]`, `basis` the contained base-rectangle nodes,
    -- `redundant` the flag left true when no base has count 1
    if !((basesOf g (cover.get ⟨i, h⟩)).any fun idx => covered idx == 1) then
      prunePass g (swapRemove cover i) i
        (decrementAll (basesOf g (cover.get ⟨i, h⟩)) covered)
    else
      prunePass g cover (i + 1) covered
  else
    (cover, covered)
termination_by cover.length - i
decreasing_by
  · have hlast : cover.getLast?.isSome := by
      cases cover with
      | nil => simp at h
      | cons a as => simp [List.getLast?_isSome]
    have hlen : (swapRemove cover i).length = cover.length - 1 := by
      unfold swapRemove
      cases hg : cover.getLast? with
      | some last => simp
      | none => simp [hg] at hlast
    omega
  · omega

/-- Embeds `Cover_pruner::postprocess_cover` on explicit state: run the pruning loop
from index 0. -/
def prunerPostprocess (g : BaseRectGraph) (state : List Rectangle × (Nat → Nat)) :
    List Rectangle × (Nat → Nat) :=
  prunePass g state.1 0 state.2

end Cover

namespace Cover

theorem decrementAll_eq_of_not_mem (basis : List Nat) (covered : Nat → Nat)
    (n : Nat) (h : n ∉ basis) : decrementAll basis covered n = covered n := by
  induction basis generalizing covered with
  | nil => rfl
  | cons x xs ih =>
      have hnx : n ≠ x := fun he => h (he ▸ List.mem_cons_self x xs)
      have hxs : n ∉ xs := fun hm => h (List.mem_cons_of_mem x hm)
      unfold decrementAll
      simp only [List.foldl_cons]
      have := ih (fun m => if m = x then covered m - 1 else covered m) hxs
      unfold decrementAll at this
      rw [this]
      simp [hnx]

theorem decrementAll_ge_one (basis : List Nat) (covered : Nat → Nat)
    (hnd : basis.Nodup) (hall : ∀ x ∈ basis, covered x ≠ 1)
    (h1 : ∀ n, 1 ≤ covered n) : ∀ n, 1 ≤ decrementAll basis covered n := by
  induction basis generalizing covered with
  | nil => exact h1
  | cons x xs ih =>
      intro n
      unfold decrementAll
      simp only [List.foldl_cons]
      have hx2 : 2 ≤ covered x := by
        have := hall x (List.mem_cons_self x xs)
        have := h1 x
        omega
      have hmx : x ∉ xs := (List.nodup_cons.mp hnd).1
      have hnd2 : xs.Nodup := (List.nodup_cons.mp hnd).2
      have step := ih (fun m => if m = x then covered m - 1 else covered m) hnd2
        (by
          intro y hy
          have hyx : y ≠ x := fun he => hmx (he ▸ hy)
          simpa [hyx] using hall y (List.mem_cons_of_mem x hy))
        (by
          intro m
          by_cases hm : m = x
          · subst hm
            simp
            omega
          · simpa [hm] using h1 m)
      exact step n

theorem swapRemove_eq_of_ne_nil (cover : List Rectangle) (i : Nat)
    (h : cover ≠ []) :
    swapRemove cover i = (cover.set i (cover.getLast h)).dropLast := by
  unfold swapRemove
  rw [List.getLast?_eq_getLast_of_ne_nil h]

theorem swapRemove_subset (cover : List Rectangle) (i : Nat) :
    ∀ r ∈ swapRemove cover i, r ∈ cover := by
  intro r hr
  by_cases hne : cover = []
  · subst hne
    simp [swapRemove] at hr
  · rw [swapRemove_eq_of_ne_nil cover i hne] at hr
    have hmem : r ∈ cover.set i (cover.getLast hne) := List.dropLast_subset _ hr
    rcases List.mem_or_eq_of_mem_set hmem with hm | he
    · exact hm
    · subst he
      exact List.getLast_mem hne

theorem swapRemove_length (cover : List Rectangle) (i : Nat)
    (h : cover ≠ []) : (swapRemove cover i).length = cover.length - 1 := by
  rw [swapRemove_eq_of_ne_nil cover i h]
  simp

/-- Elements strictly before the examined index are untouched by a
swap-and-pop at that index. -/
theorem swapRemove_getElem_lt (cover : List Rectangle) (i j : Nat)
    (hij : j < i) (hi : i < cover.length) :
    (swapRemove cover i)[j]? = cover[j]? := by
  have hne : cover ≠ [] := by
    intro he
    subst he
    simp at hi
  rw [swapRemove_eq_of_ne_nil cover i hne]
  rw [List.getElem?_dropLast]
  have hlen : (cover.set i (cover.getLast hne)).length = cover.length := by simp
  rw [hlen]
  have hjlt : j < cover.length - 1 := by omega
  rw [if_pos hjlt]
  exact List.getElem?_set_ne (by omega)

end Cover

namespace Cover

theorem prunePass_eq_redundant (g : BaseRectGraph) (cover : List Rectangle)
    (i : Nat) (covered : Nat → Nat) (h : i < cover.length)
    (hred : (!((basesOf g (cover.get ⟨i, h⟩)).any fun idx => covered idx == 1)) = true) :
    prunePass g cover i covered =
      prunePass g (swapRemove cover i) i
        (decrementAll (basesOf g (cover.get ⟨i, h⟩)) covered) := by
  rw [prunePass]
  simp only [dif_pos h, hred, if_true]

theorem prunePass_eq_advance (g : BaseRectGraph) (cover : List Rectangle)
    (i : Nat) (covered : Nat → Nat) (h : i < cover.length)
    (hred : ¬ (!((basesOf g (cover.get ⟨i, h⟩)).any fun idx => covered idx == 1)) = true) :
    prunePass g cover i covered = prunePass g cover (i + 1) covered := by
  rw [prunePass]
  simp only [dif_pos h]
  rw [if_neg hred]

theorem prunePass_eq_stop (g : BaseRectGraph) (cover : List Rectangle)
    (i : Nat) (covered : Nat → Nat) (h : ¬ i < cover.length) :
    prunePass g cover i covered = (cover, covered) := by
  rw [prunePass]
  simp only [dif_neg h]

/-- The redundancy test of the pruner, as a statement about the counts: the
boolean is true exactly when no contained base has coverage count 1. -/
theorem pruner_redundant_iff (basis : List Nat) (covered : Nat → Nat) :
    (!(basis.any fun idx => covered idx == 1)) = true ↔
      ∀ x ∈ basis, covered x ≠ 1 := by
  simp [List.any_eq_true]

/-- After the pruning loop, every rectangle still in the cover contains a base
rectangle whose coverage count is exactly 1 (a count of 1 is absorbing: a
rectangle can only be removed when none of its bases has count 1, so such a
base is never decremented again). -/
theorem prunePass_kept (g : BaseRectGraph) (cover : List Rectangle) (i : Nat)
    (covered : Nat → Nat)
    (hinv : ∀ j, j < i → ∀ r, cover[j]? = some r →
      ∃ b ∈ basesOf g r, covered b = 1) :
    ∀ r ∈ (prunePass g cover i covered).1,
      ∃ b ∈ basesOf g r, (prunePass g cover i covered).2 b = 1 := by
  induction cover, i, covered using prunePass.induct g with
  | case1 cover i covered h hred ih =>
      intro r hr
      set basis := basesOf g (cover.get ⟨i, h⟩) with hbasis
      rw [prunePass_eq_redundant g cover i covered h hred] at hr ⊢
      have hall := (pruner_redundant_iff basis covered).mp hred
      refine ih ?_ r hr
      intro j hj s hs
      rw [swapRemove_getElem_lt cover i j hj h] at hs
      obtain ⟨b, hbmem, hb1⟩ := hinv j hj s hs
      refine ⟨b, hbmem, ?_⟩
      have hbnot : b ∉ basis := fun hbin => (hall b hbin) hb1
      rw [decrementAll_eq_of_not_mem basis covered b hbnot]
      exact hb1
  | case2 cover i covered h hred ih =>
      intro r hr
      rw [prunePass_eq_advance g cover i covered h hred] at hr ⊢
      refine ih ?_ r hr
      intro j hj s hs
      rcases Nat.lt_succ_iff_lt_or_eq.mp hj with hj2 | hj2
      · exact hinv j hj2 s hs
      · subst hj2
        have hsome : cover[j]? = some (cover.get ⟨j, h⟩) := List.getElem?_eq_getElem h
        rw [hsome] at hs
        injection hs with hs
        subst hs
        have hany : ((basesOf g (cover.get ⟨j, h⟩)).any fun idx => covered idx == 1) = true := by
          by_contra hc
          exact hred (by simp [hc] at *; simpa using hc)
        obtain ⟨b, hbmem, hb⟩ := List.any_eq_true.mp hany
        exact ⟨b, hbmem, by simpa using hb⟩
  | case3 cover i covered h =>
      intro r hr
      rw [prunePass_eq_stop g cover i covered h] at hr ⊢
      have hr2 : r ∈ cover := hr
      obtain ⟨j, hjlen, hjr⟩ := List.getElem_of_mem hr2
      have hji : j < i := by omega
      exact hinv j hji r (by rw [← hjr]; exact List.getElem?_eq_getElem hjlen)

/-- When every cover rectangle already contains a base with coverage count 1,
the pruning loop is the identity. -/
theorem prunePass_fix (g : BaseRectGraph) (cover : List Rectangle) (i : Nat)
    (covered : Nat → Nat)
    (hall : ∀ r ∈ cover, ∃ b ∈ basesOf g r, covered b = 1) :
    prunePass g cover i covered = (cover, covered) := by
  induction cover, i, covered using prunePass.induct g with
  | case1 cover i covered h hred ih =>
      exfalso
      obtain ⟨b, hbmem, hb1⟩ := hall (cover.get ⟨i, h⟩) (cover.get_mem _ _)
      exact ((pruner_redundant_iff _ covered).mp hred) b hbmem hb1
  | case2 cover i covered h hred ih =>
      rw [prunePass_eq_advance g cover i covered h hred]
      exact ih hall
  | case3 cover i covered h =>
      exact prunePass_eq_stop g cover i covered h

/-- C5: the pruner is idempotent under a fixed base-rectangle graph: applying
`Cover_pruner::postprocess_cover` twice yields the same cover and the same
coverage counts as applying it once, and after one pass every remaining cover
rectangle contains at least one base rectangle with coverage count exactly 1. -/
theorem pruner_idempotent (g : BaseRectGraph) (cover : List Rectangle)
    (covered : Nat → Nat) :
    prunerPostprocess g (prunerPostprocess g (cover, covered)) =
        prunerPostprocess g (cover, covered) ∧
      ∀ r ∈ (prunerPostprocess g (cover, covered)).1,
        ∃ b ∈ basesOf g r, (prunerPostprocess g (cover, covered)).2 b = 1 := by
  have hkept := prunePass_kept g cover 0 covered (by intro j hj; omega)
  constructor
  · show prunePass g _ 0 _ = _
    have hfix := prunePass_fix g (prunePass g cover 0 covered).1 0
      (prunePass g cover 0 covered).2 hkept
    calc prunePass g (prunerPostprocess g (cover, covered)).1 0
          (prunerPostprocess g (cover, covered)).2
        = ((prunePass g cover 0 covered).1, (prunePass g cover 0 covered).2) := hfix
      _ = prunerPostprocess g (cover, covered) := rfl
  · exact hkept

/-- C10 (generalized over the loop index): the pruning loop never drops a
coverage count below 1 when the contained-bases lists are duplicate-free. -/
theorem prunePass_preserves_coverage (g : BaseRectGraph) (cover : List Rectangle)
    (i : Nat) (covered : Nat → Nat)
    (hnd : ∀ r ∈ cover, (basesOf g r).Nodup)
    (h1 : ∀ n, 1 ≤ covered n) :
    ∀ n, 1 ≤ (prunePass g cover i covered).2 n := by
  induction cover, i, covered using prunePass.induct g with
  | case1 cover i covered h hred ih =>
      rw [prunePass_eq_redundant g cover i covered h hred]
      refine ih ?_ ?_
      · intro r hr
        exact hnd r (swapRemove_subset cover i r hr)
      · refine decrementAll_ge_one _ covered ?_ ?_ h1
        · exact hnd _ (cover.get_mem _ _)
        · exact (pruner_redundant_iff _ covered).mp hred
  | case2 cover i covered h hred ih =>
      rw [prunePass_eq_advance g cover i covered h hred]
      exact ih hnd h1
  | case3 cover i covered h =>
      rw [prunePass_eq_stop g cover i covered h]
      exact h1

/-- C10: `Cover_pruner::postprocess_cover` never uncovers a base rectangle:
when every coverage count is at least 1 before pruning, every count is still
at least 1 afterwards. -/
theorem pruner_never_uncovers (g : BaseRectGraph) (cover : List Rectangle)
    (covered : Nat → Nat)
    (hnd : ∀ r ∈ cover, (basesOf g r).Nodup)
    (h1 : ∀ n, 1 ≤ covered n) :
    ∀ n, 1 ≤ (prunerPostprocess g (cover, covered)).2 n :=
  prunePass_preserves_coverage g cover 0 covered hnd h1

end Cover

namespace Cover

/-- Base rectangles of a 2-by-1 strip: two unit squares side by side. -/
def brListW : List Rectangle := [⟨⟨0, 0⟩, ⟨1, 1⟩⟩, ⟨⟨1, 0⟩, ⟨2, 1⟩⟩]

/-- The base-rectangle graph built from `brListW`. -/
def graphW : BaseRectGraph := BaseRectGraph.build brListW

/-- A one-rectangle cover of the strip, used by the pruner witness. -/
def coverW : List Rectangle := [⟨⟨0, 0⟩, ⟨2, 1⟩⟩]

/-- Witness for `pruner_never_uncovers`: on the concrete strip graph with all
counts 2, pruning removes the redundant rectangle and the counts stay at
least 1. -/
theorem pruner_never_uncovers_witness :
    (∀ r ∈ coverW, (basesOf graphW r).Nodup) ∧
      1 ≤ (prunerPostprocess graphW (coverW, fun _ => 2)).2 0 :=
  ⟨by decide, pruner_never_uncovers graphW coverW (fun _ => 2) (by decide)
    (fun _ => Nat.le_succ 1) 0⟩

end Cover

namespace Cover

/-! ## Segments and the full cover joiner (`Cover_joiner_full`) -/

/-- A segment: ordered pair of points (CGAL `Segment_2`). -/
structure Segment where
  source : Pt
  target : Pt
deriving DecidableEq, Repr

/-- A segment is vertical iff source and target share their x-coordinate. -/
def Segment.is_vertical (s : Segment) : Bool := s.source.x == s.target.x

/-- A segment is horizontal iff source and target share their y-coordinate. -/
def Segment.is_horizontal (s : Segment) : Bool := s.source.y == s.target.y

/-- Embeds `Rectangle::fully_intersects`: whether the segment crosses the
rectangle's interior (touching the boundary does not count). -/
def Rectangle.fully_intersects (r : Rectangle) (segment : Segment) : Bool :=
  if segment.is_vertical then
    let segment_x := segment.target.x
    if segment_x ≥ r.get_max_x || segment_x ≤ r.get_min_x then
      false
    else
      let segment_y_1 := segment.target.y
      let segment_y_2 := segment.source.y
      !((segment_y_1 ≥ r.get_max_y && segment_y_2 ≥ r.get_max_y) ||
        (segment_y_1 ≤ r.get_min_y && segment_y_2 ≤ r.get_min_y))
  else
    let segment_y := segment.target.y
    if segment_y ≥ r.get_max_y || segment_y ≤ r.get_min_y then
      false
    else
      let segment_x_1 := segment.target.x
      let segment_x_2 := segment.source.x
      !((segment_x_1 ≥ r.get_max_x && segment_x_2 ≥ r.get_max_x) ||
        (segment_x_1 ≤ r.get_min_x && segment_x_2 ≤ r.get_min_x))

/-- A polygon with holes, reduced to the edge lists the joiner inspects. -/
structure PolygonWH where
  outer_boundary : List Segment
  holes : List (List Segment)
deriving DecidableEq, Repr

/-- Embeds `Cover_joiner_full::is_valid` (single-polygon overload): no edge fully
intersects the rectangle. -/
def joinerIsValidPoly (edges : List Segment) (rectangle : Rectangle) : Bool :=
  edges.all fun edge => !(rectangle.fully_intersects edge)

/-- Embeds `Cover_joiner_full::is_valid`: valid against the outer boundary and
against every hole. -/
def joinerIsValid (polygon : PolygonWH) (rectangle : Rectangle) : Bool :=
  joinerIsValidPoly polygon.outer_boundary rectangle &&
    polygon.holes.all fun hole => joinerIsValidPoly hole rectangle

/-- Embeds `Cover_joiner_full::try_join_rectangles`: bounding-box join of the two
rectangles; reject when the join does not reduce the cost, when the current
best cost reduction is less than or equal to the new one (this is the
comparison as written in the source), or when the joined rectangle is not
valid; otherwise return the join and its cost reduction. -/
def tryJoinRectangles (first second : Rectangle) (polygon : PolygonWH)
    (costs : Costs) (current_best_cost_reduction : Option Nat) :
    Option (Rectangle × Nat) :=
  let max_x := max first.get_max_x second.get_max_x
  let min_x := min first.get_min_x second.get_min_x
  let max_y := max first.get_max_y second.get_max_y
  let min_y := min first.get_min_y second.get_min_y
  let joined : Rectangle := ⟨⟨min_x, min_y⟩, ⟨max_x, max_y⟩⟩
  let original_cost :=
    totalCostOfRectangle first costs + totalCostOfRectangle second costs
  let joined_cost := totalCostOfRectangle joined costs
  let cost_reduction := original_cost - joined_cost
  -- the three rejection disjuncts of the source, short-circuited in order
  if joined_cost ≥ original_cost then
    none
  else if (match current_best_cost_reduction with
      | some best => decide (best ≤ cost_reduction)
      | none => false) then
    none
  else if ¬ joinerIsValid polygon joined = true then
    none
  else
    some (joined, cost_reduction)

/-- The inner scan of `Cover_joiner_full::postprocess_cover` for a fixed
first rectangle: walk the remaining rectangles, track the best cost reduction
found so far, the joined rectangle, and the partner's position.  The
rectangle produced here is the one the replacement step pushes into the
cover. -/
def joinFullScan (first : Rectangle) (rest : List Rectangle)
    (polygon : PolygonWH) (costs : Costs) :
    Option Nat × Rectangle × Option Nat :=
  (rest.enum.foldl
    (fun acc er =>
      match tryJoinRectangles first er.2 polygon costs acc.1 with
      | some joined_red => (some joined_red.2, joined_red.1, some er.1)
      | none => acc)
    (none, first, none))

/-- C4 (code bug): on the 3-by-1 strip polygon covered by three unit squares
with costs `(creation 10, area 1)`, joining `A = [0,1]×[0,1]` with
`B = [1,2]×[0,1]` is valid and reduces the cost by 10, yet the scan for `A`
ends with the join of `A` and `C = [2,3]×[0,1]`, whose reduction is only 9:
the comparison `current_best_cost_reduction <= cost_reduction → reject` keeps
the smallest positive cost reduction instead of the largest, contradicting
the class documentation ("if it is larger than the current cost reduction …
the best cost reduction is updated"). -/
theorem join_full_picks_smallest_reduction :
    joinFullScan ⟨⟨0, 0⟩, ⟨1, 1⟩⟩
        [⟨⟨1, 0⟩, ⟨2, 1⟩⟩, ⟨⟨2, 0⟩, ⟨3, 1⟩⟩]
        ⟨[⟨⟨0, 0⟩, ⟨3, 0⟩⟩, ⟨⟨3, 0⟩, ⟨3, 1⟩⟩, ⟨⟨3, 1⟩, ⟨0, 1⟩⟩, ⟨⟨0, 1⟩, ⟨0, 0⟩⟩], []⟩
        ⟨10, 1⟩ =
      (some 9, ⟨⟨0, 0⟩, ⟨3, 1⟩⟩, some 1) ∧
    tryJoinRectangles ⟨⟨0, 0⟩, ⟨1, 1⟩⟩ ⟨⟨1, 0⟩, ⟨2, 1⟩⟩
        ⟨[⟨⟨0, 0⟩, ⟨3, 0⟩⟩, ⟨⟨3, 0⟩, ⟨3, 1⟩⟩, ⟨⟨3, 1⟩, ⟨0, 1⟩⟩, ⟨⟨0, 1⟩, ⟨0, 0⟩⟩], []⟩
        ⟨10, 1⟩ none =
      some (⟨⟨0, 0⟩, ⟨2, 1⟩⟩, 10) := by
  constructor
  · rfl
  · rfl

end Cover

namespace Cover

/-! ## Cover trimmer (`Cover_trimmer`)

The four side-trim functions of `cover_trimmer.cpp` share one loop shape and
differ only in the walk direction, the terminating corner, the shrink
direction and the shrink amount; the embedding factors that shape into
`trimScan`/`trimLoop` and instantiates it four times, one per source
function.  Each shrink is logged, so the temporal order of side shrinks is
part of the result. -/

/-- The four sides a trim step can shrink. -/
inductive TrimSide where
  | top
  | left
  | bottom
  | right
deriving DecidableEq, Repr

/-- The direction data distinguishing the four `Cover_trimmer::trim_*`
functions. -/
structure TrimDir where
  side : TrimSide
  /-- neighbor pointer the inner border scan follows -/
  next_inner : BaseRectNode → Option Nat
  /-- base-rectangle corner compared against the corner of the rectangle to end
  the scan -/
  corner_inner : BaseRectNode → Pt
  /-- rectangle corner the scan ends at -/
  corner_rect : Rectangle → Pt
  /-- which side of the rectangle shrinks -/
  shrink : Rectangle → Int → Rectangle
  /-- shrink amount, taken from the node the outer loop entered at -/
  amount : BaseRectNode → Int
  /-- neighbor pointer the outer loop follows to the next border strip -/
  next_outer : BaseRectNode → Option Nat

/-- The inner scan of a `trim_*` function: walk the border strip from the
entry node; a node with coverage count 1 makes the strip non-redundant
(`none`); reaching the rectangle's far corner proves it redundant and yields
the nodes seen (each is pushed before the corner test, as in the source).  A
missing node or missing neighbor, where the C++ would read out of bounds,
aborts the scan without effect. -/
def trimScan (nodes : List BaseRectNode) (cov : Nat → Nat) (d : TrimDir)
    (stop : Pt) : Nat → Nat → List Nat → Option (List Nat)
  | 0, _, _ => none
  | fuel + 1, curr, seen =>
      match nodes[curr]? with
      | none => none
      | some nd =>
          if cov curr == 1 then
            none
          else if d.corner_inner nd == stop then
            some (seen ++ [curr])
          else
            match d.next_inner nd with
            | some nxt => trimScan nodes cov d stop fuel nxt (seen ++ [curr])
            | none => none

/-- The outer loop of a `trim_*` function: while the border strip just inside
the side is redundant, shrink the side by the entry node's extent, decrement
the seen nodes' counts, log the shrink, and move to the next strip. -/
def trimLoop (g : BaseRectGraph) (d : TrimDir) :
    Nat → Option Nat → Rectangle → (Nat → Nat) → List TrimSide →
      Rectangle × (Nat → Nat) × List TrimSide
  | 0, _, r, cov, tr => (r, cov, tr)
  | _ + 1, none, r, cov, tr => (r, cov, tr)
  | fuel + 1, some curr, r, cov, tr =>
      match g.nodes[curr]? with
      | none => (r, cov, tr)
      | some entry_br =>
          match trimScan g.nodes cov d (d.corner_rect r)
              (g.nodes.length + 1) curr [] with
          | none => (r, cov, tr)
          | some seen =>
              trimLoop g d fuel (d.next_outer entry_br)
                (d.shrink r (d.amount entry_br))
                (decrementAll seen cov)
                (tr ++ [d.side])

/-- Embeds `Cover_trimmer::trim_top`: scan each top row leftwards until the
rectangle's top-left, shrink the top downwards by the row height, descend via
`bottom`. -/
def dirTop : TrimDir :=
  { side := .top
    next_inner := (·.left)
    corner_inner := (·.base_rectangle.get_top_left)
    corner_rect := (·.get_top_left)
    shrink := Rectangle.shrink_down
    amount := (·.base_rectangle.height)
    next_outer := (·.bottom) }

/-- Embeds `Cover_trimmer::trim_left`: scan each left column upwards until the
rectangle's top-left, shrink the left side rightwards by the column width,
move right via `right`. -/
def dirLeft : TrimDir :=
  { side := .left
    next_inner := (·.top)
    corner_inner := (·.base_rectangle.get_top_left)
    corner_rect := (·.get_top_left)
    shrink := Rectangle.shrink_left
    amount := (·.base_rectangle.width)
    next_outer := (·.right) }

/-- Embeds `Cover_trimmer::trim_bottom`: scan each bottom row rightwards until the
rectangle's bottom-right, shrink the bottom upwards by the row height, ascend
via `top`. -/
def dirBottom : TrimDir :=
  { side := .bottom
    next_inner := (·.right)
    corner_inner := (·.base_rectangle.get_bottom_right)
    corner_rect := (·.get_bottom_right)
    shrink := Rectangle.shrink_up
    amount := (·.base_rectangle.height)
    next_outer := (·.top) }

/-- Embeds `Cover_trimmer::trim_right`: scan each right column downwards until the
rectangle's bottom-right, shrink the right side leftwards by the column
width, move left via `left`. -/
def dirRight : TrimDir :=
  { side := .right
    next_inner := (·.bottom)
    corner_inner := (·.base_rectangle.get_bottom_right)
    corner_rect := (·.get_bottom_right)
    shrink := Rectangle.shrink_right
    amount := (·.base_rectangle.width)
    next_outer := (·.left) }

/-- Embeds `trim_top`: starts at `top_right_map.at(rectangle.top_right)`. -/
def trim_top (g : BaseRectGraph) (r : Rectangle) (cov : Nat → Nat)
    (tr : List TrimSide) : Rectangle × (Nat → Nat) × List TrimSide :=
  trimLoop g dirTop (g.nodes.length + 1) (mapFind g.topRight r.get_top_right) r cov tr

/-- Embeds `trim_left`: starts at `bottom_left_map.at(rectangle.bottom_left)`. -/
def trim_left (g : BaseRectGraph) (r : Rectangle) (cov : Nat → Nat)
    (tr : List TrimSide) : Rectangle × (Nat → Nat) × List TrimSide :=
  trimLoop g dirLeft (g.nodes.length + 1) (mapFind g.bottomLeft r.get_bottom_left) r cov tr

/-- Embeds `trim_bottom`: starts at `bottom_left_map.at(rectangle.bottom_left)`. -/
def trim_bottom (g : BaseRectGraph) (r : Rectangle) (cov : Nat → Nat)
    (tr : List TrimSide) : Rectangle × (Nat → Nat) × List TrimSide :=
  trimLoop g dirBottom (g.nodes.length + 1) (mapFind g.bottomLeft r.get_bottom_left) r cov tr

/-- Embeds `trim_right`: starts at `top_right_map.at(rectangle.top_right)`. -/
def trim_right (g : BaseRectGraph) (r : Rectangle) (cov : Nat → Nat)
    (tr : List TrimSide) : Rectangle × (Nat → Nat) × List TrimSide :=
  trimLoop g dirRight (g.nodes.length + 1) (mapFind g.topRight r.get_top_right) r cov tr

/-- The per-rectangle body of `Cover_trimmer::postprocess_cover`, in the call
order of the source: `trim_top`, `trim_bottom`, `trim_right`, `trim_left`. -/
def trimmerPostprocessRect (g : BaseRectGraph) (r : Rectangle)
    (cov : Nat → Nat) : Rectangle × (Nat → Nat) × List TrimSide :=
  let s1 := trim_top g r cov []
  let s2 := trim_bottom g s1.1 s1.2.1 s1.2.2
  let s3 := trim_right g s2.1 s2.2.1 s2.2.2
  trim_left g s3.1 s3.2.1 s3.2.2

/-- The side order the spec claims — top, left, bottom, right — applied to
the same side-trim functions, for comparison with the source's order. -/
def trimmerSpecOrderRect (g : BaseRectGraph) (r : Rectangle)
    (cov : Nat → Nat) : Rectangle × (Nat → Nat) × List TrimSide :=
  let s1 := trim_top g r cov []
  let s2 := trim_left g s1.1 s1.2.1 s1.2.2
  let s3 := trim_bottom g s2.1 s2.2.1 s2.2.2
  trim_right g s3.1 s3.2.1 s3.2.2

/-- The position of a side in the sequence the claim states:
top, left, bottom, right. -/
def specRank : TrimSide → Nat
  | .top => 0
  | .left => 1
  | .bottom => 2
  | .right => 3

/-- A shrink-event sequence conforms to a side order when its ranks are
non-decreasing. -/
def sideSeqOrdered (rank : TrimSide → Nat) (l : List TrimSide) : Prop :=
  l.Chain' fun a b => rank a ≤ rank b

instance (rank : TrimSide → Nat) (l : List TrimSide) :
    Decidable (sideSeqOrdered rank l) :=
  inferInstanceAs (Decidable (l.Chain' fun a b => rank a ≤ rank b))

end Cover

namespace Cover

/-- Base rectangles of a 2-by-2 square: four unit cells. -/
def brListC : List Rectangle :=
  [⟨⟨0, 0⟩, ⟨1, 1⟩⟩, ⟨⟨1, 0⟩, ⟨2, 1⟩⟩, ⟨⟨0, 1⟩, ⟨1, 2⟩⟩, ⟨⟨1, 2 - 1⟩, ⟨2, 2⟩⟩]

/-- The base-rectangle graph of the 2-by-2 square. -/
def graphC : BaseRectGraph := BaseRectGraph.build brListC

/-- Coverage counts for the trimmer counterexample: the top-right cell is
covered once, the three other cells twice (node index 2 is the top-right cell
in build order). -/
def covC : Nat → Nat := fun n => if n = 2 then 1 else 2

/-- C2 counterexample: trimming the full square `[0,2] × [0,2]` under `covC`,
the source performs a bottom shrink before a left shrink — the shrink
sequence is `[bottom, left]`, which violates the claimed processing order
top, left, bottom, right; the claimed order on the same input yields the
sequence `[left, bottom]`. -/
theorem trimmer_order_counterexample :
    (trimmerPostprocessRect graphC ⟨⟨0, 0⟩, ⟨2, 2⟩⟩ covC).2.2 =
        [TrimSide.bottom, TrimSide.left] ∧
      ¬ sideSeqOrdered specRank [TrimSide.bottom, TrimSide.left] ∧
      (trimmerSpecOrderRect graphC ⟨⟨0, 0⟩, ⟨2, 2⟩⟩ covC).2.2 =
        [TrimSide.left, TrimSide.bottom] := by
  refine ⟨by decide, ?_, by decide⟩
  intro hcontra
  have h21 := (List.chain'_cons.mp hcontra).1
  simp [specRank] at h21

end Cover

namespace Cover

theorem decrementAll_le (basis : List Nat) (covered : Nat → Nat) (n : Nat) :
    decrementAll basis covered n ≤ covered n := by
  induction basis generalizing covered with
  | nil => exact le_refl _
  | cons x xs ih =>
      unfold decrementAll
      simp only [List.foldl_cons]
      have step := ih (fun m => if m = x then covered m - 1 else covered m)
      unfold decrementAll at step
      refine le_trans step ?_
      by_cases hm : n = x
      · simp [hm]
      · simp [hm]

/-- Embeds `r2` sits inside `r` coordinate-wise: each side moved only inward. -/
def coordMono (r r2 : Rectangle) : Prop :=
  r.bottom_left.x ≤ r2.bottom_left.x ∧ r.bottom_left.y ≤ r2.bottom_left.y ∧
    r2.top_right.x ≤ r.top_right.x ∧ r2.top_right.y ≤ r.top_right.y

theorem coordMono_refl (r : Rectangle) : coordMono r r :=
  ⟨le_refl _, le_refl _, le_refl _, le_refl _⟩

theorem coordMono_trans {a b c : Rectangle} (h1 : coordMono a b)
    (h2 : coordMono b c) : coordMono a c := by
  obtain ⟨h11, h12, h13, h14⟩ := h1
  obtain ⟨h21, h22, h23, h24⟩ := h2
  exact ⟨le_trans h11 h21, le_trans h12 h22, le_trans h23 h13, le_trans h24 h14⟩

/-- Every shrink a trim loop performs moves its side inward, provided each
single shrink does. -/
theorem trimLoop_mono (g : BaseRectGraph) (d : TrimDir)
    (hshrink : ∀ (r : Rectangle) (nd : BaseRectNode), nd ∈ g.nodes →
      coordMono r (d.shrink r (d.amount nd))) :
    ∀ (fuel : Nat) (curr : Option Nat) (r : Rectangle) (cov : Nat → Nat)
      (tr : List TrimSide), coordMono r (trimLoop g d fuel curr r cov tr).1 := by
  intro fuel
  induction fuel with
  | zero =>
      intro curr r cov tr
      cases curr <;> exact coordMono_refl r
  | succ n ih =>
      intro curr r cov tr
      cases curr with
      | none => exact coordMono_refl r
      | some c =>
          show coordMono r (trimLoop g d (n + 1) (some c) r cov tr).1
          unfold trimLoop
          cases hnd : g.nodes[c]? with
          | none => exact coordMono_refl r
          | some entry =>
              cases hscan : trimScan g.nodes cov d (d.corner_rect r)
                  (g.nodes.length + 1) c [] with
              | none => exact coordMono_refl r
              | some seen =>
                  have hmem : entry ∈ g.nodes := by
                    obtain ⟨hlt, hget⟩ := List.getElem?_eq_some.mp hnd
                    exact hget ▸ List.getElem_mem hlt
                  exact coordMono_trans (hshrink r entry hmem) (ih _ _ _ _)

/-- A trim loop never increments a coverage count. -/
theorem trimLoop_cov_le (g : BaseRectGraph) (d : TrimDir) :
    ∀ (fuel : Nat) (curr : Option Nat) (r : Rectangle) (cov : Nat → Nat)
      (tr : List TrimSide) (n : Nat),
      (trimLoop g d fuel curr r cov tr).2.1 n ≤ cov n := by
  intro fuel
  induction fuel with
  | zero =>
      intro curr r cov tr n
      cases curr <;> exact le_refl _
  | succ m ih =>
      intro curr r cov tr n
      cases curr with
      | none => exact le_refl _
      | some c =>
          show (trimLoop g d (m + 1) (some c) r cov tr).2.1 n ≤ cov n
          unfold trimLoop
          cases hnd : g.nodes[c]? with
          | none => exact le_refl _
          | some entry =>
              cases hscan : trimScan g.nodes cov d (d.corner_rect r)
                  (g.nodes.length + 1) c [] with
              | none => exact le_refl _
              | some seen =>
                  exact le_trans (ih _ _ _ _ _) (decrementAll_le seen cov n)

/-- A trim loop only appends shrink events for its own side. -/
theorem trimLoop_trace (g : BaseRectGraph) (d : TrimDir) :
    ∀ (fuel : Nat) (curr : Option Nat) (r : Rectangle) (cov : Nat → Nat)
      (tr : List TrimSide),
      ∃ extra, (trimLoop g d fuel curr r cov tr).2.2 = tr ++ extra ∧
        ∀ s ∈ extra, s = d.side := by
  intro fuel
  induction fuel with
  | zero =>
      intro curr r cov tr
      cases curr <;> exact ⟨[], by simp [trimLoop], by simp⟩
  | succ m ih =>
      intro curr r cov tr
      cases curr with
      | none => exact ⟨[], by simp [trimLoop], by simp⟩
      | some c =>
          show ∃ extra, (trimLoop g d (m + 1) (some c) r cov tr).2.2 = tr ++ extra ∧
            ∀ s ∈ extra, s = d.side
          unfold trimLoop
          cases hnd : g.nodes[c]? with
          | none => exact ⟨[], by simp, by simp⟩
          | some entry =>
              cases hscan : trimScan g.nodes cov d (d.corner_rect r)
                  (g.nodes.length + 1) c [] with
              | none => exact ⟨[], by simp, by simp⟩

              | some seen =>
                  obtain ⟨extra, hex, hall⟩ := ih (d.next_outer entry)
                    (d.shrink r (d.amount entry)) (decrementAll seen cov)
                    (tr ++ [d.side])
                  refine ⟨d.side :: extra, ?_, ?_⟩
                  · rw [hex]
                    simp
                  · intro s hs
                    rcases List.mem_cons.mp hs with hs | hs
                    · exact hs
                    · exact hall s hs

end Cover

namespace Cover

/-- Positive-extent premise on the base rectangles of the graph, as the data model
of the spec guarantees for every `BaseRect`. -/
def properBases (g : BaseRectGraph) : Prop :=
  ∀ nd ∈ g.nodes, 0 < nd.base_rectangle.height ∧ 0 < nd.base_rectangle.width

instance (g : BaseRectGraph) : Decidable (properBases g) := by
  unfold properBases
  exact List.decidableBAll _ g.nodes

theorem dirTop_shrink_mono (g : BaseRectGraph) (hg : properBases g) :
    ∀ (r0 : Rectangle) (nd : BaseRectNode), nd ∈ g.nodes →
      coordMono r0 (dirTop.shrink r0 (dirTop.amount nd)) := by
  intro r0 nd hm
  have hh := (hg nd hm).1
  unfold Rectangle.height at hh
  refine ⟨le_refl _, le_refl _, le_refl _, ?_⟩
  simp only [dirTop, Rectangle.shrink_down, Rectangle.height]
  omega

theorem dirBottom_shrink_mono (g : BaseRectGraph) (hg : properBases g) :
    ∀ (r0 : Rectangle) (nd : BaseRectNode), nd ∈ g.nodes →
      coordMono r0 (dirBottom.shrink r0 (dirBottom.amount nd)) := by
  intro r0 nd hm
  have hh := (hg nd hm).1
  unfold Rectangle.height at hh
  refine ⟨le_refl _, ?_, le_refl _, le_refl _⟩
  simp only [dirBottom, Rectangle.shrink_up, Rectangle.height]
  omega

theorem dirRight_shrink_mono (g : BaseRectGraph) (hg : properBases g) :
    ∀ (r0 : Rectangle) (nd : BaseRectNode), nd ∈ g.nodes →
      coordMono r0 (dirRight.shrink r0 (dirRight.amount nd)) := by
  intro r0 nd hm
  have hw := (hg nd hm).2
  unfold Rectangle.width at hw
  refine ⟨le_refl _, le_refl _, ?_, le_refl _⟩
  simp only [dirRight, Rectangle.shrink_right, Rectangle.width]
  omega

theorem dirLeft_shrink_mono (g : BaseRectGraph) (hg : properBases g) :
    ∀ (r0 : Rectangle) (nd : BaseRectNode), nd ∈ g.nodes →
      coordMono r0 (dirLeft.shrink r0 (dirLeft.amount nd)) := by
  intro r0 nd hm
  have hw := (hg nd hm).2
  unfold Rectangle.width at hw
  refine ⟨?_, le_refl _, le_refl _, le_refl _⟩
  simp only [dirLeft, Rectangle.shrink_left, Rectangle.width]
  omega

theorem trim_top_trace (g : BaseRectGraph) (r : Rectangle) (cov : Nat → Nat)
    (tr : List TrimSide) :
    ∃ e, (trim_top g r cov tr).2.2 = tr ++ e ∧ ∀ s ∈ e, s = TrimSide.top := by
  simpa [trim_top, dirTop] using trimLoop_trace g dirTop (g.nodes.length + 1)
    (mapFind g.topRight r.get_top_right) r cov tr

theorem trim_bottom_trace (g : BaseRectGraph) (r : Rectangle) (cov : Nat → Nat)
    (tr : List TrimSide) :
    ∃ e, (trim_bottom g r cov tr).2.2 = tr ++ e ∧ ∀ s ∈ e, s = TrimSide.bottom := by
  simpa [trim_bottom, dirBottom] using trimLoop_trace g dirBottom (g.nodes.length + 1)
    (mapFind g.bottomLeft r.get_bottom_left) r cov tr

theorem trim_right_trace (g : BaseRectGraph) (r : Rectangle) (cov : Nat → Nat)
    (tr : List TrimSide) :
    ∃ e, (trim_right g r cov tr).2.2 = tr ++ e ∧ ∀ s ∈ e, s = TrimSide.right := by
  simpa [trim_right, dirRight] using trimLoop_trace g dirRight (g.nodes.length + 1)
    (mapFind g.topRight r.get_top_right) r cov tr

theorem trim_left_trace (g : BaseRectGraph) (r : Rectangle) (cov : Nat → Nat)
    (tr : List TrimSide) :
    ∃ e, (trim_left g r cov tr).2.2 = tr ++ e ∧ ∀ s ∈ e, s = TrimSide.left := by
  simpa [trim_left, dirLeft] using trimLoop_trace g dirLeft (g.nodes.length + 1)
    (mapFind g.bottomLeft r.get_bottom_left) r cov tr

/-- C2 amended: per cover rectangle, `Cover_trimmer::postprocess_cover`
shrinks the four sides in the sequence top, bottom, right, left — the
shrink-event log is a block of top shrinks, then bottom shrinks, then right
shrinks, then left shrinks — and, when the base rectangles have positive
extents, every shrink moves only its own side inward and the coverage counts
are only ever decremented. -/
theorem trimmer_order_amended (g : BaseRectGraph) (r : Rectangle)
    (cov : Nat → Nat) (hg : properBases g) :
    (∃ t1 t2 t3 t4,
        (trimmerPostprocessRect g r cov).2.2 = t1 ++ t2 ++ t3 ++ t4 ∧
          (∀ s ∈ t1, s = TrimSide.top) ∧ (∀ s ∈ t2, s = TrimSide.bottom) ∧
          (∀ s ∈ t3, s = TrimSide.right) ∧ (∀ s ∈ t4, s = TrimSide.left)) ∧
      coordMono r (trimmerPostprocessRect g r cov).1 ∧
      ∀ n, (trimmerPostprocessRect g r cov).2.1 n ≤ cov n := by
  simp only [trimmerPostprocessRect]
  obtain ⟨e1, he1, ha1⟩ := trim_top_trace g r cov []
  obtain ⟨e2, he2, ha2⟩ := trim_bottom_trace g (trim_top g r cov []).1
    (trim_top g r cov []).2.1 (trim_top g r cov []).2.2
  obtain ⟨e3, he3, ha3⟩ := trim_right_trace g
    (trim_bottom g (trim_top g r cov []).1 (trim_top g r cov []).2.1
      (trim_top g r cov []).2.2).1
    (trim_bottom g (trim_top g r cov []).1 (trim_top g r cov []).2.1
      (trim_top g r cov []).2.2).2.1
    (trim_bottom g (trim_top g r cov []).1 (trim_top g r cov []).2.1
      (trim_top g r cov []).2.2).2.2
  set S2 := trim_bottom g (trim_top g r cov []).1 (trim_top g r cov []).2.1
    (trim_top g r cov []).2.2 with hS2
  set S3 := trim_right g S2.1 S2.2.1 S2.2.2 with hS3
  obtain ⟨e4, he4, ha4⟩ := trim_left_trace g S3.1 S3.2.1 S3.2.2
  refine ⟨⟨e1, e2, e3, e4, ?_, ha1, ha2, ha3, ha4⟩, ?_, ?_⟩
  · rw [he4, he3, he2, he1]
    simp
  · have m1 : coordMono r (trim_top g r cov []).1 :=
      trimLoop_mono g dirTop (dirTop_shrink_mono g hg) _ _ _ _ _
    have m2 : coordMono (trim_top g r cov []).1 S2.1 := by
      rw [hS2]
      exact trimLoop_mono g dirBottom (dirBottom_shrink_mono g hg) _ _ _ _ _
    have m3 : coordMono S2.1 S3.1 := by
      rw [hS3]
      exact trimLoop_mono g dirRight (dirRight_shrink_mono g hg) _ _ _ _ _
    have m4 : coordMono S3.1 (trim_left g S3.1 S3.2.1 S3.2.2).1 :=
      trimLoop_mono g dirLeft (dirLeft_shrink_mono g hg) _ _ _ _ _
    exact coordMono_trans (coordMono_trans (coordMono_trans m1 m2) m3) m4
  · intro n
    have c1 : (trim_top g r cov []).2.1 n ≤ cov n :=
      trimLoop_cov_le g dirTop _ _ _ _ _ n
    have c2 : S2.2.1 n ≤ (trim_top g r cov []).2.1 n := by
      rw [hS2]
      exact trimLoop_cov_le g dirBottom _ _ _ _ _ n
    have c3 : S3.2.1 n ≤ S2.2.1 n := by
      rw [hS3]
      exact trimLoop_cov_le g dirRight _ _ _ _ _ n
    have c4 : (trim_left g S3.1 S3.2.1 S3.2.2).2.1 n ≤ S3.2.1 n :=
      trimLoop_cov_le g dirLeft _ _ _ _ _ n
    exact le_trans c4 (le_trans c3 (le_trans c2 c1))

/-- Witness for `trimmer_order_amended`: the 2-by-2 grid of the
counterexample has proper bases, and the theorem applies to the full square
under `covC`. -/
theorem trimmer_order_amended_witness :
    properBases graphC ∧
      coordMono ⟨⟨0, 0⟩, ⟨2, 2⟩⟩
        (trimmerPostprocessRect graphC ⟨⟨0, 0⟩, ⟨2, 2⟩⟩ covC).1 :=
  ⟨by decide,
    (trimmer_order_amended graphC ⟨⟨0, 0⟩, ⟨2, 2⟩⟩ covC (by decide)).2.1⟩

end Cover

namespace Cover

/-! ## Ray utilities (`Util::get_closest_intersection`)

The ray/segment intersection itself is CGAL's (external, §6 of the spec);
the embedding implements its documented behavior for the rectilinear inputs
the call sites provide: an axis-aligned ray against an axis-aligned edge,
with collinear overlaps reported as the clipped sub-segment. -/

/-- A direction vector (CGAL `Direction_2`). -/
structure Dir where
  dx : Int
  dy : Int
deriving DecidableEq, Repr

/-- Embeds `Util::normalize`: clamp both components to `{-1, 0, 1}`. -/
def normalize (d : Dir) : Dir :=
  ⟨if d.dx = 0 then 0 else if d.dx < 0 then -1 else 1,
    if d.dy = 0 then 0 else if d.dy < 0 then -1 else 1⟩

/-- A ray: source plus direction (CGAL `Ray_2`). -/
structure Ray where
  source : Pt
  direction : Dir
deriving DecidableEq, Repr

/-- The two shapes `CGAL::intersection(ray, segment)` can produce here. -/
inductive InterResult where
  | point (p : Pt)
  | overlap (a b : Pt)
deriving DecidableEq, Repr

/-- Intersection of an upward ray from `s` with an axis-aligned edge. -/
def rayUpInter (s : Pt) (edge : Segment) : Option InterResult :=
  -- here `ey` is the y-level of the edge, `xlo ≤ xhi` its x-span, `ylo ≤ yhi` its y-span,
  -- `lo` the near end of a collinear overlap clipped at the ray source
  if edge.is_horizontal && !edge.is_vertical then
    if min edge.source.x edge.target.x ≤ s.x ∧ s.x ≤ max edge.source.x edge.target.x ∧
        s.y ≤ edge.source.y then
      some (.point ⟨s.x, edge.source.y⟩)
    else none
  else if edge.is_vertical && !edge.is_horizontal then
    if edge.source.x = s.x then
      if max edge.source.y edge.target.y < max (min edge.source.y edge.target.y) s.y then
        none
      else if max edge.source.y edge.target.y = max (min edge.source.y edge.target.y) s.y then
        some (.point ⟨s.x, max edge.source.y edge.target.y⟩)
      else
        some (.overlap ⟨s.x, max (min edge.source.y edge.target.y) s.y⟩
          ⟨s.x, max edge.source.y edge.target.y⟩)
    else none
  else none

/-- Intersection of a downward ray from `s` with an axis-aligned edge. -/
def rayDownInter (s : Pt) (edge : Segment) : Option InterResult :=
  if edge.is_horizontal && !edge.is_vertical then
    if min edge.source.x edge.target.x ≤ s.x ∧ s.x ≤ max edge.source.x edge.target.x ∧
        edge.source.y ≤ s.y then
      some (.point ⟨s.x, edge.source.y⟩)
    else none
  else if edge.is_vertical && !edge.is_horizontal then
    if edge.source.x = s.x then
      if min (max edge.source.y edge.target.y) s.y < min edge.source.y edge.target.y then
        none
      else if min (max edge.source.y edge.target.y) s.y = min edge.source.y edge.target.y then
        some (.point ⟨s.x, min edge.source.y edge.target.y⟩)
      else
        some (.overlap ⟨s.x, min edge.source.y edge.target.y⟩
          ⟨s.x, min (max edge.source.y edge.target.y) s.y⟩)
    else none
  else none

/-- Intersection of a rightward ray from `s` with an axis-aligned edge. -/
def rayRightInter (s : Pt) (edge : Segment) : Option InterResult :=
  if edge.is_vertical && !edge.is_horizontal then
    if min edge.source.y edge.target.y ≤ s.y ∧ s.y ≤ max edge.source.y edge.target.y ∧
        s.x ≤ edge.source.x then
      some (.point ⟨edge.source.x, s.y⟩)
    else none
  else if edge.is_horizontal && !edge.is_vertical then
    if edge.source.y = s.y then
      if max edge.source.x edge.target.x < max (min edge.source.x edge.target.x) s.x then
        none
      else if max edge.source.x edge.target.x = max (min edge.source.x edge.target.x) s.x then
        some (.point ⟨max edge.source.x edge.target.x, s.y⟩)
      else
        some (.overlap ⟨max (min edge.source.x edge.target.x) s.x, s.y⟩
          ⟨max edge.source.x edge.target.x, s.y⟩)
    else none
  else none

/-- Intersection of a leftward ray from `s` with an axis-aligned edge. -/
def rayLeftInter (s : Pt) (edge : Segment) : Option InterResult :=
  if edge.is_vertical && !edge.is_horizontal then
    if min edge.source.y edge.target.y ≤ s.y ∧ s.y ≤ max edge.source.y edge.target.y ∧
        edge.source.x ≤ s.x then
      some (.point ⟨edge.source.x, s.y⟩)
    else none
  else if edge.is_horizontal && !edge.is_vertical then
    if edge.source.y = s.y then
      if min (max edge.source.x edge.target.x) s.x < min edge.source.x edge.target.x then
        none
      else if min (max edge.source.x edge.target.x) s.x = min edge.source.x edge.target.x then
        some (.point ⟨min edge.source.x edge.target.x, s.y⟩)
      else
        some (.overlap ⟨min edge.source.x edge.target.x, s.y⟩
          ⟨min (max edge.source.x edge.target.x) s.x, s.y⟩)
    else none
  else none

/-- Embeds `CGAL::intersection(ray, edge)` for the modelled domain: the
normalized ray direction must be one of the four axis units. -/
def rayEdgeIntersection (ray : Ray) (edge : Segment) : Option InterResult :=
  let nd := normalize ray.direction
  if nd = ⟨0, 1⟩ then rayUpInter ray.source edge
  else if nd = ⟨0, -1⟩ then rayDownInter ray.source edge
  else if nd = ⟨1, 0⟩ then rayRightInter ray.source edge
  else if nd = ⟨-1, 0⟩ then rayLeftInter ray.source edge
  else none

/-- The points an intersection result inserts into the ordered set: a point
intersection inserts itself, a collinear overlap inserts both endpoints. -/
def interPts : Option InterResult → List Pt
  | none => []
  | some (.point p) => [p]
  | some (.overlap a b) => [a, b]

/-- The candidate intersection points `get_closest_intersection` collects:
edges sharing the ray's source vertex are skipped; the others contribute
their intersection points. -/
def rayCandidates (ray : Ray) (polygon : List Segment) : List Pt :=
  polygon.flatMap fun edge =>
    if edge.source == ray.source || edge.target == ray.source then []
    else interPts (rayEdgeIntersection ray edge)

/-- Embeds `*intersections.begin()`: the lexicographically smallest point. -/
def lexMinPt (l : List Pt) : Option Pt :=
  l.foldl
    (fun acc q =>
      match acc with
      | none => some q
      | some b => if Pt.lt q b then some q else some b)
    none

/-- Embeds `*intersections.rbegin()`: the lexicographically largest point. -/
def lexMaxPt (l : List Pt) : Option Pt :=
  l.foldl
    (fun acc q =>
      match acc with
      | none => some q
      | some b => if Pt.lt b q then some q else some b)
    none

/-- Embeds `Util::get_closest_intersection(Ray, Polygon)`: collect the candidate
points into the ordered set and take the smallest for rays going up or right
(`direction.dy() > 0 || direction.dx() > 0` on the normalized direction),
the largest otherwise. -/
def getClosestIntersection (ray : Ray) (polygon : List Segment) : Option Pt :=
  let cands := rayCandidates ray polygon
  if cands.isEmpty then none
  else
    let nd := normalize ray.direction
    if nd.dy > 0 ∨ nd.dx > 0 then lexMinPt cands else lexMaxPt cands

/-- L1 distance from the ray source; on an axis-aligned ray this is the
ray parameter of the point. -/
def rayDist (ray : Ray) (q : Pt) : Int :=
  |q.x - ray.source.x| + |q.y - ray.source.y|

end Cover

namespace Cover

theorem Pt.lt_iff (p q : Pt) : Pt.lt p q = true ↔ (p.x < q.x ∨ (p.x = q.x ∧ p.y < q.y)) := by
  simp [Pt.lt]

theorem Pt.lt_trans {a b c : Pt} (h1 : Pt.lt a b = true) (h2 : Pt.lt b c = true) :
    Pt.lt a c = true := by
  rw [Pt.lt_iff] at *
  omega

theorem Pt.lt_irrefl (a : Pt) : ¬ Pt.lt a a = true := by
  rw [Pt.lt_iff]
  omega

theorem Pt.lt_asymm {a b : Pt} (h : Pt.lt a b = true) : ¬ Pt.lt b a = true := by
  rw [Pt.lt_iff] at *
  omega

theorem lexMinPt_fold (l : List Pt) :
    ∀ (acc : Option Pt) (p : Pt),
      l.foldl
        (fun acc q =>
          match acc with
          | none => some q
          | some b => if Pt.lt q b then some q else some b)
        acc = some p →
      (∀ q ∈ l, ¬ Pt.lt q p = true) ∧
        (∀ b, acc = some b → (p = b ∨ Pt.lt p b = true)) ∧
        (acc = none → p ∈ l) ∧
        (∀ b, acc = some b → (p = b ∨ p ∈ l)) := by
  induction l with
  | nil =>
      intro acc p h
      simp only [List.foldl_nil] at h
      subst h
      refine ⟨by simp, ?_, ?_, ?_⟩
      · intro b hb
        injection hb with hb
        exact Or.inl hb
      · intro hc
        exact (Option.some_ne_none p hc).elim
      · intro b hb
        injection hb with hb
        exact Or.inl hb
  | cons x xs ih =>
      intro acc p h
      cases acc with
      | none =>
          simp only [List.foldl_cons] at h
          obtain ⟨hq, hacc, _, hmem⟩ := ih (some x) p h
          have hxp : p = x ∨ Pt.lt p x = true := hacc x rfl
          refine ⟨?_, ?_, ?_, ?_⟩
          · intro q hqm
            rcases List.mem_cons.mp hqm with hqx | hqxs
            · subst hqx
              rcases hxp with he | hlt
              · subst he
                exact Pt.lt_irrefl p
              · exact Pt.lt_asymm hlt
            · exact hq q hqxs
          · intro b hb
            cases hb
          · intro _
            rcases hmem x rfl with he | hm
            · exact he ▸ List.mem_cons_self x xs
            · exact List.mem_cons_of_mem x hm
          · intro b hb
            cases hb
      | some b =>
          simp only [List.foldl_cons] at h
          by_cases hxb : Pt.lt x b = true
          · rw [if_pos hxb] at h
            obtain ⟨hq, hacc, _, hmem⟩ := ih (some x) p h
            have hxp : p = x ∨ Pt.lt p x = true := hacc x rfl
            refine ⟨?_, ?_, ?_, ?_⟩
            · intro q hqm
              rcases List.mem_cons.mp hqm with hqx | hqxs
              · subst hqx
                rcases hxp with he | hlt
                · subst he
                  exact Pt.lt_irrefl p
                · exact Pt.lt_asymm hlt
              · exact hq q hqxs
            · intro c hc
              injection hc with hc
              subst hc
              rcases hxp with he | hlt
              · exact Or.inr (he ▸ hxb)
              · exact Or.inr (Pt.lt_trans hlt hxb)
            · intro hc
              cases hc
            · intro c hc
              rcases hmem x rfl with he | hm
              · exact Or.inr (he ▸ List.mem_cons_self x xs)
              · exact Or.inr (List.mem_cons_of_mem x hm)
          · rw [if_neg hxb] at h
            obtain ⟨hq, hacc, _, hmem⟩ := ih (some b) p h
            have hbp : p = b ∨ Pt.lt p b = true := hacc b rfl
            refine ⟨?_, ?_, ?_, ?_⟩
            · intro q hqm
              rcases List.mem_cons.mp hqm with hqx | hqxs
              · subst hqx
                intro hqp
                rcases hbp with he | hlt
                · exact hxb (he ▸ hqp)
                · exact hxb (Pt.lt_trans hqp hlt)
              · exact hq q hqxs
            · intro c hc
              injection hc with hc
              subst hc
              exact hbp
            · intro hc
              cases hc
            · intro c hc
              injection hc with hc
              subst hc
              rcases hmem b rfl with he | hm
              · exact Or.inl he
              · exact Or.inr (List.mem_cons_of_mem x hm)

theorem lexMinPt_spec (l : List Pt) (p : Pt) (h : lexMinPt l = some p) :
    p ∈ l ∧ ∀ q ∈ l, ¬ Pt.lt q p = true := by
  obtain ⟨hq, _, hmem, _⟩ := lexMinPt_fold l none p h
  exact ⟨hmem rfl, hq⟩

theorem lexMaxPt_fold (l : List Pt) :
    ∀ (acc : Option Pt) (p : Pt),
      l.foldl
        (fun acc q =>
          match acc with
          | none => some q
          | some b => if Pt.lt b q then some q else some b)
        acc = some p →
      (∀ q ∈ l, ¬ Pt.lt p q = true) ∧
        (∀ b, acc = some b → (p = b ∨ Pt.lt b p = true)) ∧
        (acc = none → p ∈ l) ∧
        (∀ b, acc = some b → (p = b ∨ p ∈ l)) := by
  induction l with
  | nil =>
      intro acc p h
      simp only [List.foldl_nil] at h
      subst h
      refine ⟨by simp, ?_, ?_, ?_⟩
      · intro b hb
        injection hb with hb
        exact Or.inl hb
      · intro hc
        exact (Option.some_ne_none p hc).elim
      · intro b hb
        injection hb with hb
        exact Or.inl hb
  | cons x xs ih =>
      intro acc p h
      cases acc with
      | none =>
          simp only [List.foldl_cons] at h
          obtain ⟨hq, hacc, _, hmem⟩ := ih (some x) p h
          have hxp : p = x ∨ Pt.lt x p = true := hacc x rfl
          refine ⟨?_, ?_, ?_, ?_⟩
          · intro q hqm
            rcases List.mem_cons.mp hqm with hqx | hqxs
            · subst hqx
              rcases hxp with he | hlt
              · subst he
                exact Pt.lt_irrefl p
              · exact Pt.lt_asymm hlt
            · exact hq q hqxs
          · intro b hb
            cases hb
          · intro _
            rcases hmem x rfl with he | hm
            · exact he ▸ List.mem_cons_self x xs
            · exact List.mem_cons_of_mem x hm
          · intro b hb
            cases hb
      | some b =>
          simp only [List.foldl_cons] at h
          by_cases hbx : Pt.lt b x = true
          · rw [if_pos hbx] at h
            obtain ⟨hq, hacc, _, hmem⟩ := ih (some x) p h
            have hxp : p = x ∨ Pt.lt x p = true := hacc x rfl
            refine ⟨?_, ?_, ?_, ?_⟩
            · intro q hqm
              rcases List.mem_cons.mp hqm with hqx | hqxs
              · subst hqx
                rcases hxp with he | hlt
                · subst he
                  exact Pt.lt_irrefl p
                · exact Pt.lt_asymm hlt
              · exact hq q hqxs
            · intro c hc
              injection hc with hc
              subst hc
              rcases hxp with he | hlt
              · exact Or.inr (he ▸ hbx)
              · exact Or.inr (Pt.lt_trans hbx hlt)
            · intro hc
              cases hc
            · intro c hc
              rcases hmem x rfl with he | hm
              · exact Or.inr (he ▸ List.mem_cons_self x xs)
              · exact Or.inr (List.mem_cons_of_mem x hm)
          · rw [if_neg hbx] at h
            obtain ⟨hq, hacc, _, hmem⟩ := ih (some b) p h
            have hbp : p = b ∨ Pt.lt b p = true := hacc b rfl
            refine ⟨?_, ?_, ?_, ?_⟩
            · intro q hqm
              rcases List.mem_cons.mp hqm with hqx | hqxs
              · subst hqx
                intro hpq
                rcases hbp with he | hlt
                · exact hbx (he ▸ hpq)
                · exact hbx (Pt.lt_trans hlt hpq)
              · exact hq q hqxs
            · intro c hc
              injection hc with hc
              subst hc
              exact hbp
            · intro hc
              cases hc
            · intro c hc
              injection hc with hc
              subst hc
              rcases hmem b rfl with he | hm
              · exact Or.inl he
              · exact Or.inr (List.mem_cons_of_mem x hm)

theorem lexMaxPt_spec (l : List Pt) (p : Pt) (h : lexMaxPt l = some p) :
    p ∈ l ∧ ∀ q ∈ l, ¬ Pt.lt p q = true := by
  obtain ⟨hq, _, hmem, _⟩ := lexMaxPt_fold l none p h
  exact ⟨hmem rfl, hq⟩

end Cover


namespace Cover

theorem rayUpInter_sound (s : Pt) (edge : Segment) (q : Pt)
    (h : q ∈ interPts (rayUpInter s edge)) : q.x = s.x ∧ s.y ≤ q.y := by
  unfold rayUpInter at h
  split at h
  · split at h
    · next hcond =>
        simp [interPts] at h
        subst h
        exact ⟨rfl, hcond.2.2⟩
    · simp [interPts] at h
  · split at h
    · split at h
      · split at h
        · simp [interPts] at h
        · split at h
          · next heq =>
              simp [interPts] at h
              subst h
              exact ⟨rfl, by simp only []; omega⟩
          · simp [interPts] at h
            rcases h with h | h <;> subst h
            · exact ⟨rfl, by simp only []; omega⟩
            · exact ⟨rfl, by simp only []; omega⟩
      · simp [interPts] at h
    · simp [interPts] at h

end Cover

namespace Cover

theorem rayDownInter_sound (s : Pt) (edge : Segment) (q : Pt)
    (h : q ∈ interPts (rayDownInter s edge)) : q.x = s.x ∧ q.y ≤ s.y := by
  unfold rayDownInter at h
  split at h
  · split at h
    · next hcond =>
        simp [interPts] at h
        subst h
        exact ⟨rfl, hcond.2.2⟩
    · simp [interPts] at h
  · split at h
    · split at h
      · split at h
        · simp [interPts] at h
        · split at h
          · simp [interPts] at h
            subst h
            exact ⟨rfl, by simp only []; omega⟩
          · simp [interPts] at h
            rcases h with h | h <;> subst h
            · exact ⟨rfl, by simp only []; omega⟩
            · exact ⟨rfl, by simp only []; omega⟩
      · simp [interPts] at h
    · simp [interPts] at h

theorem rayRightInter_sound (s : Pt) (edge : Segment) (q : Pt)
    (h : q ∈ interPts (rayRightInter s edge)) : q.y = s.y ∧ s.x ≤ q.x := by
  unfold rayRightInter at h
  split at h
  · split at h
    · next hcond =>
        simp [interPts] at h
        subst h
        exact ⟨rfl, hcond.2.2⟩
    · simp [interPts] at h
  · split at h
    · split at h
      · split at h
        · simp [interPts] at h
        · split at h
          · simp [interPts] at h
            subst h
            exact ⟨rfl, by simp only []; omega⟩
          · simp [interPts] at h
            rcases h with h | h <;> subst h
            · exact ⟨rfl, by simp only []; omega⟩
            · exact ⟨rfl, by simp only []; omega⟩
      · simp [interPts] at h
    · simp [interPts] at h

theorem rayLeftInter_sound (s : Pt) (edge : Segment) (q : Pt)
    (h : q ∈ interPts (rayLeftInter s edge)) : q.y = s.y ∧ q.x ≤ s.x := by
  unfold rayLeftInter at h
  split at h
  · split at h
    · next hcond =>
        simp [interPts] at h
        subst h
        exact ⟨rfl, hcond.2.2⟩
    · simp [interPts] at h
  · split at h
    · split at h
      · split at h
        · simp [interPts] at h
        · split at h
          · simp [interPts] at h
            subst h
            exact ⟨rfl, by simp only []; omega⟩
          · simp [interPts] at h
            rcases h with h | h <;> subst h
            · exact ⟨rfl, by simp only []; omega⟩
            · exact ⟨rfl, by simp only []; omega⟩
      · simp [interPts] at h
    · simp [interPts] at h

end Cover

namespace Cover

theorem rayCandidates_sound_up (ray : Ray) (polygon : List Segment)
    (hnd : normalize ray.direction = ⟨0, 1⟩) :
    ∀ q ∈ rayCandidates ray polygon,
      q.x = ray.source.x ∧ ray.source.y ≤ q.y := by
  intro q hq
  obtain ⟨edge, hedge, hqe⟩ := List.mem_flatMap.mp hq
  split at hqe
  · simp at hqe
  · have heq : rayEdgeIntersection ray edge = rayUpInter ray.source edge := by
      simp [rayEdgeIntersection, hnd]
    rw [heq] at hqe
    exact rayUpInter_sound ray.source edge q hqe

theorem rayCandidates_sound_down (ray : Ray) (polygon : List Segment)
    (hnd : normalize ray.direction = ⟨0, -1⟩) :
    ∀ q ∈ rayCandidates ray polygon,
      q.x = ray.source.x ∧ q.y ≤ ray.source.y := by
  intro q hq
  obtain ⟨edge, hedge, hqe⟩ := List.mem_flatMap.mp hq
  split at hqe
  · simp at hqe
  · have heq : rayEdgeIntersection ray edge = rayDownInter ray.source edge := by
      simp [rayEdgeIntersection, hnd]
    rw [heq] at hqe
    exact rayDownInter_sound ray.source edge q hqe

theorem rayCandidates_sound_right (ray : Ray) (polygon : List Segment)
    (hnd : normalize ray.direction = ⟨1, 0⟩) :
    ∀ q ∈ rayCandidates ray polygon,
      q.y = ray.source.y ∧ ray.source.x ≤ q.x := by
  intro q hq
  obtain ⟨edge, hedge, hqe⟩ := List.mem_flatMap.mp hq
  split at hqe
  · simp at hqe
  · have heq : rayEdgeIntersection ray edge = rayRightInter ray.source edge := by
      simp [rayEdgeIntersection, hnd]
    rw [heq] at hqe
    exact rayRightInter_sound ray.source edge q hqe

theorem rayCandidates_sound_left (ray : Ray) (polygon : List Segment)
    (hnd : normalize ray.direction = ⟨-1, 0⟩) :
    ∀ q ∈ rayCandidates ray polygon,
      q.y = ray.source.y ∧ q.x ≤ ray.source.x := by
  intro q hq
  obtain ⟨edge, hedge, hqe⟩ := List.mem_flatMap.mp hq
  split at hqe
  · simp at hqe
  · have heq : rayEdgeIntersection ray edge = rayLeftInter ray.source edge := by
      simp [rayEdgeIntersection, hnd]
    rw [heq] at hqe
    exact rayLeftInter_sound ray.source edge q hqe

end Cover

namespace Cover

/-- C9: for an axis-aligned ray, `Util::get_closest_intersection` only
considers edges that do not share the ray's source vertex (that is the
definition of `rayCandidates`) and returns a candidate point of minimal
distance along the ray; the candidate chosen is the lexicographically
smallest one for rays going up or right and the lexicographically largest one
for rays going down or left. -/
theorem closest_intersection_is_closest (ray : Ray) (polygon : List Segment)
    (haxis : (ray.direction.dx = 0 ∧ ray.direction.dy ≠ 0) ∨
      (ray.direction.dy = 0 ∧ ray.direction.dx ≠ 0))
    (p : Pt) (h : getClosestIntersection ray polygon = some p) :
    p ∈ rayCandidates ray polygon ∧
      (∀ q ∈ rayCandidates ray polygon, rayDist ray p ≤ rayDist ray q) ∧
      (((normalize ray.direction).dy > 0 ∨ (normalize ray.direction).dx > 0) →
        ∀ q ∈ rayCandidates ray polygon, ¬ Pt.lt q p = true) ∧
      (¬ ((normalize ray.direction).dy > 0 ∨ (normalize ray.direction).dx > 0) →
        ∀ q ∈ rayCandidates ray polygon, ¬ Pt.lt p q = true) := by
  simp only [getClosestIntersection] at h
  by_cases hemp : (rayCandidates ray polygon).isEmpty
  · rw [if_pos hemp] at h
    cases h
  · rw [if_neg hemp] at h
    rcases haxis with ⟨hdx0, hdyne⟩ | ⟨hdy0, hdxne⟩
    · rcases lt_trichotomy ray.direction.dy 0 with hneg | hzero | hpos
      · -- DOWN
        have hnd : normalize ray.direction = ⟨0, -1⟩ := by
          unfold normalize
          rw [if_pos hdx0, if_neg hdyne, if_pos hneg]
        rw [hnd] at h
        rw [if_neg (by norm_num)] at h
        obtain ⟨hpmem, hmax⟩ := lexMaxPt_spec _ _ h
        have hall := rayCandidates_sound_down ray polygon hnd
        obtain ⟨hpx, hpy⟩ := hall p hpmem
        refine ⟨hpmem, ?_, ?_, ?_⟩
        · intro q hq
          obtain ⟨hqx, hqy⟩ := hall q hq
          have hnlt := hmax q hq
          rw [Pt.lt_iff] at hnlt
          unfold rayDist
          have e1 : |p.x - ray.source.x| = 0 := by rw [hpx]; simp
          have e2 : |q.x - ray.source.x| = 0 := by rw [hqx]; simp
          rw [e1, e2, abs_of_nonpos (by omega : p.y - ray.source.y ≤ 0),
            abs_of_nonpos (by omega : q.y - ray.source.y ≤ 0)]
          omega
        · intro hcon
          rw [hnd] at hcon
          rcases hcon with hc | hc <;> norm_num at hc
        · intro _
          exact hmax
      · exact absurd hzero hdyne
      · -- UP
        have hnd : normalize ray.direction = ⟨0, 1⟩ := by
          unfold normalize
          rw [if_pos hdx0, if_neg hdyne, if_neg (by omega)]
        rw [hnd] at h
        rw [if_pos (by norm_num)] at h
        obtain ⟨hpmem, hmin⟩ := lexMinPt_spec _ _ h
        have hall := rayCandidates_sound_up ray polygon hnd
        obtain ⟨hpx, hpy⟩ := hall p hpmem
        refine ⟨hpmem, ?_, ?_, ?_⟩
        · intro q hq
          obtain ⟨hqx, hqy⟩ := hall q hq
          have hnlt := hmin q hq
          rw [Pt.lt_iff] at hnlt
          unfold rayDist
          have e1 : |p.x - ray.source.x| = 0 := by rw [hpx]; simp
          have e2 : |q.x - ray.source.x| = 0 := by rw [hqx]; simp
          rw [e1, e2, abs_of_nonneg (by omega : 0 ≤ p.y - ray.source.y),
            abs_of_nonneg (by omega : 0 ≤ q.y - ray.source.y)]
          omega
        · intro _
          exact hmin
        · intro hcon
          rw [hnd] at hcon
          exact (hcon (Or.inl (by norm_num))).elim
    · rcases lt_trichotomy ray.direction.dx 0 with hneg | hzero | hpos
      · -- LEFT
        have hnd : normalize ray.direction = ⟨-1, 0⟩ := by
          unfold normalize
          rw [if_neg hdxne, if_pos hneg, if_pos hdy0]
        rw [hnd] at h
        rw [if_neg (by norm_num)] at h
        obtain ⟨hpmem, hmax⟩ := lexMaxPt_spec _ _ h
        have hall := rayCandidates_sound_left ray polygon hnd
        obtain ⟨hpy, hpx⟩ := hall p hpmem
        refine ⟨hpmem, ?_, ?_, ?_⟩
        · intro q hq
          obtain ⟨hqy, hqx⟩ := hall q hq
          have hnlt := hmax q hq
          rw [Pt.lt_iff] at hnlt
          unfold rayDist
          have e1 : |p.y - ray.source.y| = 0 := by rw [hpy]; simp
          have e2 : |q.y - ray.source.y| = 0 := by rw [hqy]; simp
          rw [e1, e2, abs_of_nonpos (by omega : p.x - ray.source.x ≤ 0),
            abs_of_nonpos (by omega : q.x - ray.source.x ≤ 0)]
          omega
        · intro hcon
          rw [hnd] at hcon
          rcases hcon with hc | hc <;> norm_num at hc
        · intro _
          exact hmax
      · exact absurd hzero hdxne
      · -- RIGHT
        have hnd : normalize ray.direction = ⟨1, 0⟩ := by
          unfold normalize
          rw [if_neg hdxne, if_neg (by omega), if_pos hdy0]
        rw [hnd] at h
        rw [if_pos (by norm_num)] at h
        obtain ⟨hpmem, hmin⟩ := lexMinPt_spec _ _ h
        have hall := rayCandidates_sound_right ray polygon hnd
        obtain ⟨hpy, hpx⟩ := hall p hpmem
        refine ⟨hpmem, ?_, ?_, ?_⟩
        · intro q hq
          obtain ⟨hqy, hqx⟩ := hall q hq
          have hnlt := hmin q hq
          rw [Pt.lt_iff] at hnlt
          unfold rayDist
          have e1 : |p.y - ray.source.y| = 0 := by rw [hpy]; simp
          have e2 : |q.y - ray.source.y| = 0 := by rw [hqy]; simp
          rw [e1, e2, abs_of_nonneg (by omega : 0 ≤ p.x - ray.source.x),
            abs_of_nonneg (by omega : 0 ≤ q.x - ray.source.x)]
          omega
        · intro _
          exact hmin
        · intro hcon
          rw [hnd] at hcon
          exact (hcon (Or.inr (by norm_num))).elim

end Cover

namespace Cover

/-- An upward ray from `(1,1)` with the unnormalized direction `(0,5)`. -/
def rayW : Ray := ⟨⟨1, 1⟩, ⟨0, 5⟩⟩

/-- The boundary edges of the square `[0,2] × [0,2]`. -/
def polyEdgesW : List Segment :=
  [⟨⟨0, 0⟩, ⟨2, 0⟩⟩, ⟨⟨2, 0⟩, ⟨2, 2⟩⟩, ⟨⟨2, 2⟩, ⟨0, 2⟩⟩, ⟨⟨0, 2⟩, ⟨0, 0⟩⟩]

/-- Witness for `closest_intersection_is_closest`: the upward ray from
`(1,1)` in the square hits the top edge at `(1,2)`, which is the closest
candidate. -/
theorem closest_intersection_is_closest_witness :
    (rayW.direction.dx = 0 ∧ rayW.direction.dy ≠ 0) ∧
      ((⟨1, 2⟩ : Pt) ∈ rayCandidates rayW polyEdgesW ∧
        ∀ q ∈ rayCandidates rayW polyEdgesW,
          rayDist rayW ⟨1, 2⟩ ≤ rayDist rayW q) :=
  ⟨⟨rfl, by decide⟩,
    (closest_intersection_is_closest rayW polyEdgesW (Or.inl ⟨rfl, by decide⟩)
        ⟨1, 2⟩ (by decide)).1,
    (closest_intersection_is_closest rayW polyEdgesW (Or.inl ⟨rfl, by decide⟩)
        ⟨1, 2⟩ (by decide)).2.1⟩

end Cover
